import Mathlib

/-!
# weron: the signaling server and the client commands

A shallow embedding of `cmd/webrtcfd-signaling-server/main.go` (the HTTP handler
that admits websocket connections into communities and reflects their messages)
and of the `RunE` bodies of `cmd/weron/cmd/ethernet.go` and
`cmd/weron/cmd/throughput.go`.

Conventions.
* A Go `string` is a Lean `String` (a sequence of Unicode code points).
* A Go `map[string]T` is an association list `List (String × T)`; `mapGet`,
  `mapSet` and `mapDelete` are indexing, assignment and `delete`.  The order of
  the list carries no meaning: every `range` loop receives the order in which the
  runtime visits the entries as a separate argument.
* A `*websocket.Conn` is a handle `Conn`; the operations performed on handles
  are recorded in a trace of `Op`s, and their outcomes (errors, clock readings)
  come from an `Env`.
* `panic(err)` inside the handler is a returned `Err`; the deferred functions
  are applied by the caller of the panicking block, in the order Go runs them.
-/

namespace Weron

deriving instance DecidableEq for Except

/-! ## Strings -/

/-- Go's `unicode.IsSpace`: the code points with the White_Space property. -/
def isSpace (c : Char) : Bool :=
  let n := c.toNat
  n == 9 || n == 10 || n == 11 || n == 12 || n == 13 || n == 32 || n == 0x85 || n == 0xA0 ||
  n == 0x1680 || (0x2000 ≤ n && n ≤ 0x200a) || n == 0x2028 || n == 0x2029 || n == 0x202f ||
  n == 0x205f || n == 0x3000

/-- Go's `strings.TrimSpace`: strip leading and trailing white space. -/
def TrimSpace (s : String) : String :=
  String.mk ((s.data.dropWhile isSpace).reverse.dropWhile isSpace).reverse

/-- Splitting a character sequence at every occurrence of `sep`; the result always
has one more element than there are separators. -/
def splitChars (sep : Char) : List Char → List (List Char)
  | [] => [[]]
  | c :: cs =>
    if c = sep then [] :: splitChars sep cs
    else
      match splitChars sep cs with
      | [] => [[c]]
      | seg :: rest => (c :: seg) :: rest

/-- Go's `strings.Split(s, sep)` for a one-character separator. -/
def Split (s : String) (sep : Char) : List String :=
  (splitChars sep s.data).map String.mk

/-! ## Maps -/

/-- Map indexing `m[k]` in its comma-ok form. -/
def mapGet {α : Type} : List (String × α) → String → Option α
  | [], _ => none
  | (k', v) :: m, k => if k' = k then some v else mapGet m k

/-- Map assignment `m[k] = v`. -/
def mapSet {α : Type} : List (String × α) → String → α → List (String × α)
  | [], k, v => [(k, v)]
  | (k', v') :: m, k, v => if k' = k then (k, v) :: m else (k', v') :: mapSet m k v

/-- The builtin `delete(m, k)`. -/
def mapDelete {α : Type} (m : List (String × α)) (k : String) : List (String × α) :=
  m.filter (fun e => decide (e.1 ≠ k))

/-- The keys of a map are pairwise distinct. -/
def WellKeyed {α : Type} (m : List (String × α)) : Prop :=
  (m.map Prod.fst).Nodup

/-! ## The signaling server: data -/

/-- The values the handler panics with: the four package-level errors of `main.go`
and errors produced by library calls or by the runtime. -/
inductive Err where
  | errMissingPath
  | errMissingCommunityID
  | errMissingPassword
  | errWrongPassword
  | other (msg : String)
  deriving DecidableEq, Repr

/-- Identity of a `*websocket.Conn`. -/
abbrev Conn := Nat

/-- The struct `input` of `main.go`. -/
structure input where
  messageType : Int
  p : List UInt8
  deriving DecidableEq, Repr

/-- The struct `community` of `main.go`. -/
structure community where
  password : String
  conns : List (String × Conn)
  deriving DecidableEq, Repr

/-- The variable `communities` of `main`. -/
abbrev Communities := List (String × community)

/-- The expression `communities[communityID]`: the entry, or the zero value of
`community` (empty password, nil map) when there is none. -/
def index (s : Communities) (communityID : String) : community :=
  (mapGet s communityID).getD { password := "", conns := [] }

/-- The two functions of `golang.org/x/crypto/bcrypt` the handler calls.
`GenerateFromPassword p e` is the hash produced for password `p` when the salt is
drawn from the random bits `e` (or the error returned);
`CompareHashAndPassword h p` is `true` when the library returns `nil`. -/
structure Bcrypt where
  GenerateFromPassword : String → Nat → Except Err String
  CompareHashAndPassword : String → String → Bool

/-- The verifier accepts a hash generated from `P` against `Q` exactly when
`Q = P`. -/
def Bcrypt.Exact (b : Bcrypt) : Prop :=
  ∀ P e h, b.GenerateFromPassword P e = .ok h →
    ∀ Q, b.CompareHashAndPassword h Q = true ↔ Q = P

/-- Go's `url.Values`. -/
abbrev Values := List (String × List String)

/-- Go's `Values.Get`: the first value of the key, or the empty string. -/
def Values.Get (v : Values) (key : String) : String :=
  match mapGet v key with
  | some (x :: _) => x
  | _ => ""

/-- Go's `Values.Set`: the key is given the single value. -/
def Values.Set (v : Values) (key value : String) : Values :=
  mapSet v key [value]

/-- The fields of Go's `url.URL` the programs use.  The query is kept decoded:
`RawQuery` holds the `Values` that the raw text encodes, so that `Values.Encode`
followed by `URL.Query` gives back the values (the key order that `Encode`
imposes is not observable through `Get`). -/
structure URL where
  Scheme : String
  Host : String
  Path : String
  RawQuery : Values
  deriving DecidableEq, Repr

/-- Go's `(*URL).Query`. -/
def URL.Query (u : URL) : Values := u.RawQuery

/-- Go's `Values.Encode`, see `URL`. -/
def Values.Encode (v : Values) : Values := v

/-- What the handler reads from `*http.Request`, with the two outcomes that the
environment decides: the random bits consumed by bcrypt for this request and the
result of `upgrader.Upgrade`. -/
structure Request where
  URL : URL
  RemoteAddr : String
  entropy : Nat
  upgrade : Except Err Conn

/-! ## The signaling server: admission and cleanup -/

/-- Lines 78-86 of `main.go`: the community ID of a request path. -/
def communityIDOf (urlPath : String) : Except Err String :=
  let path := Split urlPath '/'
  if path.length < 1 then .error .errMissingPath
  else
    let communityID := path.getLastD ""
    if TrimSpace communityID = "" then .error .errMissingCommunityID
    else .ok communityID

/-- Lines 88-91 of `main.go`: the password of a request. -/
def passwordOf (u : URL) : Except Err String :=
  let password := u.Query.Get "password"
  if TrimSpace password = "" then .error .errMissingPassword
  else .ok password

/-- What the handler holds once lines 78-100 have run without a panic. -/
structure Session where
  communityID : String
  password : String
  hashedPassword : String
  remoteAddr : String
  conn : Conn
  deriving DecidableEq, Repr

/-- Lines 78-100 of `main.go`: path, password, hashing and upgrade.  A panic here
happens before the cleanup is deferred. -/
def validate (b : Bcrypt) (r : Request) : Except Err Session :=
  match communityIDOf r.URL.Path with
  | .error e => .error e
  | .ok communityID =>
    match passwordOf r.URL with
    | .error e => .error e
    | .ok password =>
      match b.GenerateFromPassword password r.entropy with
      | .error e => .error e
      | .ok hashedPassword =>
        match r.upgrade with
        | .error e => .error e
        | .ok conn =>
          .ok { communityID := communityID, password := password,
                hashedPassword := hashedPassword, remoteAddr := r.RemoteAddr, conn := conn }

/-- Lines 117-130 of `main.go`: the region between `communitiesLock.Lock()` and
the `Unlock` that ends it.  The community is created when absent, the presented
password is compared with the stored hash, and on success the connection is stored
under `r.RemoteAddr`.  Returns the map at the `Unlock` and the panic value. -/
def admission (b : Bcrypt) (s : Communities) (x : Session) : Communities × Option Err :=
  let s1 :=
    match mapGet s x.communityID with
    | some _ => s
    | none => mapSet s x.communityID { password := x.hashedPassword, conns := [] }
  if b.CompareHashAndPassword (index s1 x.communityID).password x.password then
    match mapGet s1 x.communityID with
    | some c =>
      (mapSet s1 x.communityID { c with conns := mapSet c.conns x.remoteAddr x.conn }, none)
    | none => (s1, some (.other "assignment to entry in nil map"))
  else (s1, some .errWrongPassword)

/-- Lines 103-108 of `main.go`: the locked region of the deferred function. -/
def cleanup (s : Communities) (communityID remoteAddr : String) : Communities :=
  let s1 :=
    match mapGet s communityID with
    | some c => mapSet s communityID { c with conns := mapDelete c.conns remoteAddr }
    | none => s
  if (index s1 communityID).conns.length ≤ 0 then mapDelete s1 communityID else s1

/-- How the synchronous part of the handler ends. -/
inductive Outcome where
  | admitted (x : Session)
  | closed (e : Err)
  deriving DecidableEq, Repr

/-- Lines 72-130 of `main.go` for one request: validation, admission and, when the
admission panics, the locked region of the deferred function that the panic
triggers.  The outcome `closed e` carries the value `e` with which the handler
body panics.  An admitted handler goes on to its message loop; its deferred
function runs when that loop panics, see `disconnect`. -/
def handleRequest (b : Bcrypt) (s : Communities) (r : Request) : Communities × Outcome :=
  match validate b r with
  | .error e => (s, .closed e)
  | .ok x =>
    match admission b s x with
    | (s1, some e) => (cleanup s1 x.communityID x.remoteAddr, .closed e)
    | (s1, none) => (s1, .admitted x)

/-- The steps that change `communities`, one per locked region: the admission of
a request (a request that panics before reaching it changes nothing) and the
cleanup of a handler. -/
inductive Step where
  | request (r : Request)
  | cleanup (communityID remoteAddr : String)

/-- The map after one step. -/
def step (b : Bcrypt) (s : Communities) : Step → Communities
  | .request r =>
    match validate b r with
    | .error _ => s
    | .ok x => (admission b s x).1
  | .cleanup communityID remoteAddr => cleanup s communityID remoteAddr

/-- The map after a sequence of steps. -/
def run (b : Bcrypt) (s : Communities) (steps : List Step) : Communities :=
  steps.foldl (step b) s

/-- Community `communityID` is in the map in every state visited by `steps` from `s`,
`s` included. -/
def aliveAlong (b : Bcrypt) (communityID : String) : Communities → List Step → Bool
  | s, [] => (mapGet s communityID).isSome
  | s, t :: steps => (mapGet s communityID).isSome && aliveAlong b communityID (step b s t) steps

/-- The lifecycle invariant: every entry of the map has a non-empty connection map. -/
def NoEmptyCommunity (s : Communities) : Prop :=
  ∀ communityID c, mapGet s communityID = some c → c.conns ≠ []

/-! ## The signaling server: the message loop -/

/-- The operations on connections that the handler performs after admission. -/
inductive Op where
  | WriteMessage (conn : Conn) (messageType : Int) (p : List UInt8)
  | SetWriteDeadline (conn : Conn) (t : Nat)
  | Close (conn : Conn)
  deriving DecidableEq, Repr

/-- The environment of one handler: `now k` is what `time.Now()` returns and
`err k op` the error, if any, with which `op` fails, when the handler has
completed `k` operations. -/
structure Env where
  now : Nat → Nat
  err : Nat → Op → Option Err

/-- `websocket.PingMessage`. -/
def PingMessage : Int := 9

/-- Lines 172-188 of `main.go`: the `range` loop of the `inputs` case, run by the
handler of `remoteAddr` over the entries in the order `order`.  `tr` is the trace
of completed operations; the second component is the panic value. -/
def forward (env : Env) (heartbeat : Nat) (remoteAddr : String) (i : input) :
    List (String × Conn) → List Op → List Op × Option Err
  | [], tr => (tr, none)
  | (id, conn) :: rest, tr =>
    if id = remoteAddr then forward env heartbeat remoteAddr i rest tr
    else
      match env.err tr.length (.WriteMessage conn i.messageType i.p) with
      | some e => (tr, some e)
      | none =>
        let tr1 := tr ++ [.WriteMessage conn i.messageType i.p]
        match env.err tr1.length (.SetWriteDeadline conn (env.now tr1.length + heartbeat)) with
        | some e => (tr1, some e)
        | none =>
          forward env heartbeat remoteAddr i rest
            (tr1 ++ [.SetWriteDeadline conn (env.now tr1.length + heartbeat)])

/-- Lines 189-200 of `main.go`: the `pings.C` case. -/
def ping (env : Env) (heartbeat : Nat) (conn : Conn) (tr : List Op) : List Op × Option Err :=
  match env.err tr.length (.SetWriteDeadline conn (env.now tr.length + heartbeat)) with
  | some e => (tr, some e)
  | none =>
    let tr1 := tr ++ [.SetWriteDeadline conn (env.now tr.length + heartbeat)]
    match env.err tr1.length (.WriteMessage conn PingMessage []) with
    | some e => (tr1, some e)
    | none => (tr1 ++ [.WriteMessage conn PingMessage []], none)

/-- What the `select` of lines 167-202 receives: a value from `errs`, a message
from `inputs` together with the order in which the `range` loop then visits
`communities[communityID].conns`, or a tick of `pings.C`. -/
inductive Event where
  | errs (e : Option Err)
  | inputs (i : input) (order : List (String × Conn))
  | pings

/-- Lines 167-202 of `main.go`: the handler's loop over the events it receives.
The result is the trace and, when the loop panicked, the panic value; `none`
means that the handler is blocked in `select`, waiting for its next event. -/
def loop (env : Env) (heartbeat : Nat) (remoteAddr : String) (conn : Conn) :
    List Event → List Op → List Op × Option (Option Err)
  | [], tr => (tr, none)
  | .errs e :: _, tr => (tr, some e)
  | .inputs i order :: es, tr =>
    match forward env heartbeat remoteAddr i order tr with
    | (tr1, some e) => (tr1, some (some e))
    | (tr1, none) => loop env heartbeat remoteAddr conn es tr1
  | .pings :: es, tr =>
    match ping env heartbeat conn tr with
    | (tr1, some e) => (tr1, some (some e))
    | (tr1, none) => loop env heartbeat remoteAddr conn es tr1

/-- Lines 102-115 of `main.go`: the deferred function of a handler, run when its
loop panics: the entry is removed and the handler's own connection is closed. -/
def disconnect (env : Env) (s : Communities) (x : Session) (tr : List Op) :
    Communities × List Op :=
  let s1 := cleanup s x.communityID x.remoteAddr
  match env.err tr.length (.Close x.conn) with
  | some _ => (s1, tr)
  | none => (s1, tr ++ [.Close x.conn])

/-- One `inputs` event in the handler of session `x`, followed by the deferred
function when the forwarding panics.  The third component tells whether the
handler is still running. -/
def serveInput (env : Env) (heartbeat : Nat) (s : Communities) (x : Session) (i : input)
    (order : List (String × Conn)) (tr : List Op) : Communities × List Op × Bool :=
  match forward env heartbeat x.remoteAddr i order tr with
  | (tr1, some _) =>
    let r := disconnect env s x tr1
    (r.1, r.2, false)
  | (tr1, none) => (s, tr1, true)

/-- The messages written to `conn` in a trace, in order. -/
def writtenTo (conn : Conn) : List Op → List input
  | [] => []
  | .WriteMessage c t p :: tr =>
    if c = conn then { messageType := t, p := p } :: writtenTo conn tr else writtenTo conn tr
  | _ :: tr => writtenTo conn tr

/-- The messages among the events of a handler, in the order received. -/
def inputsOf : List Event → List input
  | [] => []
  | .inputs i _ :: es => i :: inputsOf es
  | _ :: es => inputsOf es

/-- The number of ticks of `pings.C` among the events of a handler. -/
def pingsOf : List Event → Nat
  | [] => 0
  | .pings :: es => pingsOf es + 1
  | _ :: es => pingsOf es

/-- An event of a run in which the handler keeps receiving and the map of its
community is `conns`: a message, forwarded in some order of `conns`, or a tick;
no value arrives on `errs`. -/
def scheduled (conns : List (String × Conn)) : Event → Bool
  | .errs _ => false
  | .inputs _ order => decide (order.Perm conns)
  | .pings => true

/-- What one event makes the handler with connection `mc` write to connection `c`,
when `c` occurs `n` times among the recipients and nothing fails. -/
def writesOf (n : Nat) (c mc : Conn) : Event → List input
  | .errs _ => []
  | .inputs i _ => List.replicate n i
  | .pings => if mc = c then [{ messageType := PingMessage, p := [] }] else []

/-- The reading of the community ID in the interface description, kept for
comparison with `communityIDOf`: the final non-empty segment of the path. -/
def finalNonEmptySegment (urlPath : String) : Option String :=
  ((Split urlPath '/').filter (fun seg => decide (seg ≠ ""))).getLast?

/-- The verifier accepts every hash against the password it was generated from. -/
def Bcrypt.Sound (b : Bcrypt) : Prop :=
  ∀ P e h, b.GenerateFromPassword P e = .ok h → b.CompareHashAndPassword h P = true

/-- A stand-in for bcrypt on which the handler can be evaluated: the hash of a
password is the password itself, so that the comparison is exact. -/
def plainBcrypt : Bcrypt where
  GenerateFromPassword := fun p _ => .ok p
  CompareHashAndPassword := fun h p => decide (h = p)

/-- A websocket request for `path` with the query `password=password`, arriving
from `remoteAddr`, whose upgrade yields the connection `conn`. -/
def joinRequest (path password remoteAddr : String) (conn : Conn) : Request where
  URL := { Scheme := "ws", Host := "localhost:1337", Path := path,
           RawQuery := [("password", [password])] }
  RemoteAddr := remoteAddr
  entropy := 0
  upgrade := .ok conn

/-- An environment in which no operation fails; the clock advances by one unit
per completed operation. -/
def quietEnv : Env where
  now := fun k => k
  err := fun _ _ => none

/-- An environment in which exactly the writes of messages to `broken` fail. -/
def brokenPipeEnv (broken : Conn) : Env where
  now := fun k => k
  err := fun _ op =>
    match op with
    | .WriteMessage c _ _ => if c = broken then some (.other "broken pipe") else none
    | _ => none

/-! ## The client commands: the URL handed to the adapter -/

/-- The errors with which `RunE` returns before it opens the adapter; the three
package-level errors are declared elsewhere in package `cmd`. -/
inductive CmdErr where
  | errMissingCommunity
  | errMissingPassword
  | errMissingKey
  | parse (msg : String)
  deriving DecidableEq, Repr

/-- Lines 52-55 of `ethernet.go` and lines 60-63 of `throughput.go`, which are
the same: the community and the password are set in the query of the parsed remote
address, and the query is written back. -/
def signalingURL (u : URL) (community password : String) : URL :=
  let q := u.Query
  let q := q.Set "community" community
  let q := q.Set "password" password
  { u with RawQuery := q.Encode }

/-- Lines 35-58 of `ethernet.go` and lines 41-66 of `throughput.go`: the checks of
the flags and the URL that is passed to `NewAdapter`.  `raddr` is the result of
`url.Parse` on the remote-address flag. -/
def adapterURL (raddr : Except CmdErr URL) (community password key : String) :
    Except CmdErr URL :=
  if TrimSpace community = "" then .error .errMissingCommunity
  else if TrimSpace password = "" then .error .errMissingPassword
  else if TrimSpace key = "" then .error .errMissingKey
  else
    match raddr with
    | .error e => .error e
    | .ok u => .ok (signalingURL u community password)

/-- The parsed default of the remote-address flag of both commands,
`wss://webrtcfd.herokuapp.com/`. -/
def defaultRaddr : URL where
  Scheme := "wss"
  Host := "webrtcfd.herokuapp.com"
  Path := "/"
  RawQuery := []

/-! ## The throughput command: one batch -/

/-- The constant `acklen` of `throughput.go`. -/
def acklen : Nat := 100

/-- Go's `int` on a 64-bit platform: the representative of `v` modulo `2 ^ 64`
between `-2 ^ 63` and `2 ^ 63 - 1`. -/
def wrapInt (v : Int) : Int :=
  (v + 9223372036854775808) % 18446744073709551616 - 9223372036854775808

/-- The calls that a batch makes, each with the length of the buffer it is given:
`rand.Read(buf)`, `peer.Conn.Write(buf)` and `peer.Conn.Read(buf)`. -/
inductive Call where
  | randRead (len : Nat)
  | Write (len : Nat)
  | Read (len : Nat)
  deriving DecidableEq, Repr

/-- The length of the buffer of a call. -/
def Call.len : Call → Nat
  | .randRead len => len
  | .Write len => len
  | .Read len => len

/-- Whether a call is made on `peer.Conn`. -/
def Call.onConn : Call → Bool
  | .randRead _ => false
  | .Write _ => true
  | .Read _ => true

/-- The outcomes of the calls: `call k c` is the pair `(n, err)` that `c` returns
when the goroutine has completed `k` calls. -/
structure Oracle where
  call : Nat → Call → Int × Option Err

/-- Lines 137-153 of `throughput.go`: the remaining `count` iterations of the
sender's inner loop, with `written` accumulated so far.  The result is the trace
of completed calls and either the error that ends the goroutine (the one sent to
`errs`, or the runtime panic of `make` on a negative length) or the final value
of `written`. -/
def senderPackets (o : Oracle) (packetLength : Int) :
    Nat → Int → List Call → List Call × Except Err Int
  | 0, written, tr => (tr, .ok written)
  | count + 1, written, tr =>
    if packetLength < 0 then (tr, .error (.other "makeslice: len out of range"))
    else
      match (o.call tr.length (.randRead packetLength.toNat)).2 with
      | some e => (tr, .error e)
      | none =>
        let tr1 := tr ++ [.randRead packetLength.toNat]
        match o.call tr1.length (.Write packetLength.toNat) with
        | (_, some e) => (tr1, .error e)
        | (n, none) =>
          senderPackets o packetLength count (wrapInt (written + n))
            (tr1 ++ [.Write packetLength.toNat])

/-- Lines 134-176 of `throughput.go`: one iteration of the sender's outer loop.
The result is the trace of completed calls and either the error that ends the
goroutine or the new value of `totalTransferred`.  The timing of the batch and
the speeds computed from it are left out. -/
def senderBatch (o : Oracle) (packetCount packetLength totalTransferred : Int)
    (tr : List Call) : List Call × Except Err Int :=
  match senderPackets o packetLength packetCount.toNat 0 tr with
  | (tr1, .error e) => (tr1, .error e)
  | (tr1, .ok written) =>
    match (o.call tr1.length (.Read acklen)).2 with
    | some e => (tr1, .error e)
    | none => (tr1 ++ [.Read acklen], .ok (wrapInt (totalTransferred + written)))

/-- Lines 189-200 of `throughput.go`: the remaining `count` iterations of the
receiver's inner loop, with `read` accumulated so far. -/
def receiverPackets (o : Oracle) (packetLength : Int) :
    Nat → Int → List Call → List Call × Except Err Int
  | 0, read, tr => (tr, .ok read)
  | count + 1, read, tr =>
    if packetLength < 0 then (tr, .error (.other "makeslice: len out of range"))
    else
      match o.call tr.length (.Read packetLength.toNat) with
      | (_, some e) => (tr, .error e)
      | (n, none) =>
        receiverPackets o packetLength count (wrapInt (read + n))
          (tr ++ [.Read packetLength.toNat])

/-- Lines 186-222 of `throughput.go`: one iteration of the receiver's outer loop,
see `senderBatch`. -/
def receiverBatch (o : Oracle) (packetCount packetLength totalTransferred : Int)
    (tr : List Call) : List Call × Except Err Int :=
  match receiverPackets o packetLength packetCount.toNat 0 tr with
  | (tr1, .error e) => (tr1, .error e)
  | (tr1, .ok read) =>
    match (o.call tr1.length (.Write acklen)).2 with
    | some e => (tr1, .error e)
    | none => (tr1 ++ [.Write acklen], .ok (wrapInt (totalTransferred + read)))

/-- The byte counts returned by the `count` writes of a sender batch that starts
when `start` calls have been completed: each write follows one `rand.Read`. -/
def writeCounts (o : Oracle) (len : Nat) : Nat → Nat → List Int
  | _, 0 => []
  | start, count + 1 =>
    (o.call (start + 1) (.Write len)).1 :: writeCounts o len (start + 2) count

/-- The byte counts returned by the `count` reads of a receiver batch that starts
when `start` calls have been completed. -/
def readCounts (o : Oracle) (len : Nat) : Nat → Nat → List Int
  | _, 0 => []
  | start, count + 1 => (o.call start (.Read len)).1 :: readCounts o len (start + 1) count

/-- The sum of a list of `int`s as the loop computes it, starting from `acc`. -/
def goSum (acc : Int) (counts : List Int) : Int :=
  counts.foldl (fun a n => wrapInt (a + n)) acc

/-- An oracle in which no call fails and every call transfers its whole buffer. -/
def fullOracle : Oracle where
  call := fun _ c => (c.len, none)

/-! # Theorems -/

/-! ## Theorems: maps -/

theorem mapGet_mapSet_self {α : Type} (m : List (String × α)) (k : String) (v : α) :
    mapGet (mapSet m k v) k = some v := by
  induction m with
  | nil => simp [mapSet, mapGet]
  | cons e m ih =>
    obtain ⟨k', v'⟩ := e
    by_cases h : k' = k
    · simp [mapSet, mapGet, h]
    · simp [mapSet, mapGet, h, ih]

theorem mapGet_mapSet_ne {α : Type} (m : List (String × α)) (k k' : String) (v : α)
    (hne : k' ≠ k) : mapGet (mapSet m k v) k' = mapGet m k' := by
  induction m with
  | nil => simp [mapSet, mapGet, Ne.symm hne]
  | cons e m ih =>
    obtain ⟨k₀, v₀⟩ := e
    by_cases h : k₀ = k
    · subst h
      simp [mapSet, mapGet, Ne.symm hne]
    · by_cases h' : k₀ = k'
      · subst h'
        simp [mapSet, mapGet, h]
      · simp [mapSet, mapGet, h, h', ih]

theorem mapGet_mapDelete_self {α : Type} (m : List (String × α)) (k : String) :
    mapGet (mapDelete m k) k = none := by
  induction m with
  | nil => simp [mapDelete, mapGet]
  | cons e m ih =>
    obtain ⟨k', v'⟩ := e
    by_cases h : k' = k
    · simpa [mapDelete, List.filter_cons, h] using ih
    · simpa [mapDelete, List.filter_cons, h, mapGet] using ih

theorem mapGet_mapDelete_ne {α : Type} (m : List (String × α)) (k k' : String)
    (hne : k' ≠ k) : mapGet (mapDelete m k) k' = mapGet m k' := by
  induction m with
  | nil => simp [mapDelete, mapGet]
  | cons e m ih =>
    obtain ⟨k₀, v₀⟩ := e
    by_cases h : k₀ = k
    · subst h
      have : ¬ k₀ = k' := fun h => hne h.symm
      simpa [mapDelete, List.filter_cons, mapGet, this] using ih
    · by_cases h' : k₀ = k'
      · subst h'
        simp [mapDelete, List.filter_cons, h, mapGet]
      · simpa [mapDelete, List.filter_cons, h, mapGet, h'] using ih

theorem mapDelete_of_absent {α : Type} (m : List (String × α)) (k : String)
    (h : mapGet m k = none) : mapDelete m k = m := by
  induction m with
  | nil => simp [mapDelete]
  | cons e m ih =>
    obtain ⟨k', v'⟩ := e
    by_cases hk : k' = k
    · simp [mapGet, hk] at h
    · simp only [mapGet, hk, if_false] at h
      have := ih h
      unfold mapDelete at this ⊢
      rw [List.filter_cons]
      simp only [ne_eq, hk, not_false_eq_true, decide_True, if_true]
      rw [this]

theorem mapSet_of_present {α : Type} (m : List (String × α)) (k : String) (v : α)
    (h : mapGet m k = some v) : mapSet m k v = m := by
  induction m with
  | nil => simp [mapGet] at h
  | cons e m ih =>
    obtain ⟨k', v'⟩ := e
    by_cases hk : k' = k
    · simp only [mapGet, hk, if_true, Option.some.injEq] at h
      simp [mapSet, hk, h]
    · simp only [mapGet, hk, if_false] at h
      simp [mapSet, hk, ih h]

/-! ## Theorems: the community ID of a path -/

theorem splitChars_shape (sep : Char) (cs : List Char) :
    ∃ first rest, splitChars sep cs = first :: rest ∧ sep ∉ first ∧
      (rest = [] → cs = first) ∧
      (rest ≠ [] → ∃ pre, cs = pre ++ sep :: rest.getLastD [] ∧ sep ∉ rest.getLastD []) := by
  induction cs with
  | nil => exact ⟨[], [], by simp [splitChars]⟩
  | cons c cs ih =>
    obtain ⟨f, r, hs, hf, h1, h2⟩ := ih
    by_cases hc : c = sep
    · refine ⟨[], f :: r, by simp [splitChars, hc, hs], by simp, by simp, fun _ => ?_⟩
      by_cases hr : r = []
      · subst hr
        refine ⟨[], ?_, by simpa using hf⟩
        simp [hc, h1 rfl]
      · obtain ⟨pre, hpre, hlast⟩ := h2 hr
        obtain ⟨a, r', rfl⟩ := List.exists_cons_of_ne_nil hr
        refine ⟨c :: pre, ?_, by simpa using hlast⟩
        simpa using hpre
    · refine ⟨c :: f, r, by simp [splitChars, hc, hs], ?_, ?_, ?_⟩
      · simp [hf, Ne.symm hc]
      · intro hr
        simp [h1 hr]
      · intro hr
        obtain ⟨pre, hpre, hlast⟩ := h2 hr
        exact ⟨c :: pre, by simp [hpre], hlast⟩

theorem splitChars_last (sep : Char) (cs : List Char) :
    ∃ pre, cs = pre ++ (splitChars sep cs).getLastD [] ∧
      sep ∉ (splitChars sep cs).getLastD [] ∧ (pre = [] ∨ pre.getLast? = some sep) := by
  obtain ⟨f, r, hs, hf, h1, h2⟩ := splitChars_shape sep cs
  by_cases hr : r = []
  · subst hr
    refine ⟨[], ?_, by simpa [hs] using hf, Or.inl rfl⟩
    rw [hs]
    simpa using h1 rfl
  · obtain ⟨pre, hpre, hlast⟩ := h2 hr
    obtain ⟨a, r', rfl⟩ := List.exists_cons_of_ne_nil hr
    refine ⟨pre ++ [sep], ?_, ?_, Or.inr (by simp)⟩
    · simpa [hs] using hpre
    · simpa [hs] using hlast

theorem getLastD_map_mk (l : List (List Char)) :
    (l.map String.mk).getLastD "" = String.mk (l.getLastD []) := by
  induction l with
  | nil => rfl
  | cons a l ih =>
    cases l with
    | nil => rfl
    | cons b l => simpa using ih

theorem splitChars_ne_nil (sep : Char) (cs : List Char) : splitChars sep cs ≠ [] := by
  obtain ⟨f, r, hs, _⟩ := splitChars_shape sep cs
  simp [hs]

theorem communityIDOf_eq (urlPath : String) :
    communityIDOf urlPath =
      (if TrimSpace (String.mk ((splitChars '/' urlPath.data).getLastD [])) = ""
        then .error .errMissingCommunityID
        else .ok (String.mk ((splitChars '/' urlPath.data).getLastD []))) := by
  have hlen : ¬ (Split urlPath '/').length < 1 := by
    have := splitChars_ne_nil '/' urlPath.data
    simp only [Split, List.length_map, Nat.lt_one_iff]
    intro h
    exact this (List.length_eq_zero.mp h)
  simp only [communityIDOf]
  rw [if_neg hlen]
  simp only [Split, getLastD_map_mk]

/-- C6, as amended: the community ID that the handler uses is the text after the
last slash of the request path (the whole path when it has no slash), and the
request panics with the missing-community-ID error exactly when that text is
blank; the missing-path error is never produced. -/
theorem communityID_is_last_segment (urlPath : String) :
    ∃ pre seg : List Char, urlPath.data = pre ++ seg ∧ '/' ∉ seg ∧
      (pre = [] ∨ pre.getLast? = some '/') ∧
      communityIDOf urlPath =
        (if TrimSpace (String.mk seg) = "" then .error .errMissingCommunityID
         else .ok (String.mk seg)) := by
  obtain ⟨pre, h1, h2, h3⟩ := splitChars_last '/' urlPath.data
  exact ⟨pre, _, h1, h2, h3, communityIDOf_eq urlPath⟩

/-- C6, counterexample: the path "/foo/" has the final non-empty segment "foo",
and the handler rejects it with the missing-community-ID error. -/
theorem communityID_trailing_slash_rejected :
    finalNonEmptySegment "/foo/" = some "foo" ∧
      communityIDOf "/foo/" = .error .errMissingCommunityID := by
  decide

/-! ## Theorems: admission and cleanup -/

theorem index_of_get {s : Communities} {communityID : String} {c : community}
    (h : mapGet s communityID = some c) : index s communityID = c := by
  simp [index, h]

theorem admission_existing (b : Bcrypt) (s : Communities) (x : Session) (c : community)
    (h : mapGet s x.communityID = some c) :
    admission b s x =
      if b.CompareHashAndPassword c.password x.password then
        (mapSet s x.communityID { c with conns := mapSet c.conns x.remoteAddr x.conn }, none)
      else (s, some .errWrongPassword) := by
  simp [admission, h, index]

theorem admission_absent (b : Bcrypt) (s : Communities) (x : Session)
    (h : mapGet s x.communityID = none) :
    admission b s x =
      if b.CompareHashAndPassword x.hashedPassword x.password then
        (mapSet (mapSet s x.communityID { password := x.hashedPassword, conns := [] })
          x.communityID { password := x.hashedPassword, conns := [(x.remoteAddr, x.conn)] }, none)
      else (mapSet s x.communityID { password := x.hashedPassword, conns := [] },
        some .errWrongPassword) := by
  simp [admission, h, index, mapGet_mapSet_self, mapSet]

theorem cleanup_existing (s : Communities) (communityID remoteAddr : String) (c : community)
    (h : mapGet s communityID = some c) :
    cleanup s communityID remoteAddr =
      if (mapDelete c.conns remoteAddr).length ≤ 0 then
        mapDelete (mapSet s communityID { c with conns := mapDelete c.conns remoteAddr })
          communityID
      else mapSet s communityID { c with conns := mapDelete c.conns remoteAddr } := by
  simp [cleanup, h, index, mapGet_mapSet_self]

theorem cleanup_absent (s : Communities) (communityID remoteAddr : String)
    (h : mapGet s communityID = none) : cleanup s communityID remoteAddr = s := by
  simp [cleanup, h, index, mapDelete_of_absent]

theorem admission_get_other (b : Bcrypt) (s : Communities) (x : Session) (k : String)
    (hk : k ≠ x.communityID) : mapGet (admission b s x).1 k = mapGet s k := by
  cases h : mapGet s x.communityID with
  | none =>
    rw [admission_absent b s x h]
    split <;> simp [mapGet_mapSet_ne _ _ _ _ hk]
  | some c =>
    rw [admission_existing b s x c h]
    split <;> simp [mapGet_mapSet_ne _ _ _ _ hk]

theorem cleanup_get_other (s : Communities) (communityID remoteAddr k : String)
    (hk : k ≠ communityID) : mapGet (cleanup s communityID remoteAddr) k = mapGet s k := by
  cases h : mapGet s communityID with
  | none => rw [cleanup_absent s _ _ h]
  | some c =>
    rw [cleanup_existing s _ _ c h]
    split <;> simp [mapGet_mapSet_ne _ _ _ _ hk, mapGet_mapDelete_ne _ _ _ hk]

theorem cleanup_get_self (s : Communities) (communityID remoteAddr : String) (c : community)
    (h : mapGet s communityID = some c) :
    mapGet (cleanup s communityID remoteAddr) communityID =
      if (mapDelete c.conns remoteAddr).length ≤ 0 then none
      else some { c with conns := mapDelete c.conns remoteAddr } := by
  rw [cleanup_existing s _ _ c h]
  split <;> simp [mapGet_mapSet_self, mapGet_mapDelete_self]

theorem admission_get_self_existing (b : Bcrypt) (s : Communities) (x : Session)
    (c : community) (h : mapGet s x.communityID = some c) :
    mapGet (admission b s x).1 x.communityID =
      if b.CompareHashAndPassword c.password x.password then
        some { c with conns := mapSet c.conns x.remoteAddr x.conn }
      else some c := by
  rw [admission_existing b s x c h]
  split <;> simp [mapGet_mapSet_self, h]

theorem admission_get_self_absent (b : Bcrypt) (s : Communities) (x : Session)
    (h : mapGet s x.communityID = none) :
    mapGet (admission b s x).1 x.communityID =
      if b.CompareHashAndPassword x.hashedPassword x.password then
        some { password := x.hashedPassword, conns := [(x.remoteAddr, x.conn)] }
      else some { password := x.hashedPassword, conns := [] } := by
  rw [admission_absent b s x h]
  split <;> simp [mapGet_mapSet_self]

theorem mapSet_ne_nil {α : Type} (m : List (String × α)) (k : String) (v : α) :
    mapSet m k v ≠ [] := by
  cases m with
  | nil => simp [mapSet]
  | cons e m =>
    obtain ⟨k', v'⟩ := e
    simp only [mapSet]
    split <;> simp

theorem validate_hash (b : Bcrypt) (r : Request) (x : Session) (h : validate b r = .ok x) :
    b.GenerateFromPassword x.password r.entropy = .ok x.hashedPassword ∧
      communityIDOf r.URL.Path = .ok x.communityID ∧ passwordOf r.URL = .ok x.password ∧
      r.upgrade = .ok x.conn ∧ x.remoteAddr = r.RemoteAddr := by
  unfold validate at h
  split at h
  · simp at h
  · split at h
    · simp at h
    · split at h
      · simp at h
      · split at h
        · simp at h
        · simp only [Except.ok.injEq] at h
          subst h
          simp [*]

theorem Bcrypt.Exact.sound {b : Bcrypt} (hb : b.Exact) : b.Sound :=
  fun P e h hg => (hb P e h hg P).mpr rfl

theorem plainBcrypt_exact : plainBcrypt.Exact := by
  intro P e h hg Q
  simp only [plainBcrypt, Except.ok.injEq] at hg
  subst hg
  simp [plainBcrypt, eq_comm]

theorem admission_noEmpty (b : Bcrypt) (s : Communities) (x : Session)
    (hx : b.CompareHashAndPassword x.hashedPassword x.password = true)
    (hinv : NoEmptyCommunity s) : NoEmptyCommunity (admission b s x).1 := by
  intro k c hk
  by_cases hkx : k = x.communityID
  · subst hkx
    cases h : mapGet s x.communityID with
    | none =>
      rw [admission_get_self_absent b s x h, hx] at hk
      simp only [if_true, Option.some.injEq] at hk
      subst hk
      simp
    | some c₀ =>
      rw [admission_get_self_existing b s x c₀ h] at hk
      split at hk
      · simp only [Option.some.injEq] at hk
        subst hk
        exact mapSet_ne_nil _ _ _
      · simp only [Option.some.injEq] at hk
        subst hk
        exact hinv _ _ h
  · rw [admission_get_other b s x k hkx] at hk
    exact hinv k c hk

theorem cleanup_noEmpty (s : Communities) (communityID remoteAddr : String)
    (hinv : NoEmptyCommunity s) : NoEmptyCommunity (cleanup s communityID remoteAddr) := by
  intro k c hk
  by_cases hkx : k = communityID
  · subst hkx
    cases h : mapGet s k with
    | none =>
      rw [cleanup_absent s _ _ h, h] at hk
      simp at hk
    | some c₀ =>
      rw [cleanup_get_self s _ _ c₀ h] at hk
      split at hk
      · simp at hk
      · rename_i hlen
        simp only [Option.some.injEq] at hk
        subst hk
        intro hnil
        apply hlen
        simp only at hnil
        simp [hnil]
  · rw [cleanup_get_other s _ _ k hkx] at hk
    exact hinv k c hk

theorem step_noEmpty (b : Bcrypt) (hb : b.Sound) (s : Communities) (t : Step)
    (hinv : NoEmptyCommunity s) : NoEmptyCommunity (step b s t) := by
  cases t with
  | request r =>
    simp only [step]
    cases hv : validate b r with
    | error e => exact hinv
    | ok x =>
      exact admission_noEmpty b s x (hb _ _ _ (validate_hash b r x hv).1) hinv
  | cleanup communityID remoteAddr => exact cleanup_noEmpty s _ _ hinv

theorem run_noEmpty (b : Bcrypt) (hb : b.Sound) (steps : List Step) (s : Communities)
    (hinv : NoEmptyCommunity s) : NoEmptyCommunity (run b s steps) := by
  induction steps generalizing s with
  | nil => exact hinv
  | cons t steps ih => exact ih (step b s t) (step_noEmpty b hb s t hinv)

theorem noEmpty_nil : NoEmptyCommunity [] := by
  intro k c hk
  simp [mapGet] at hk

theorem step_password (b : Bcrypt) (s : Communities) (t : Step) (k : String) (c c' : community)
    (h : mapGet s k = some c) (h' : mapGet (step b s t) k = some c') :
    c'.password = c.password := by
  cases t with
  | request r =>
    simp only [step] at h'
    cases hv : validate b r with
    | error e =>
      rw [hv] at h'
      simp only at h'
      rw [h] at h'
      simp only [Option.some.injEq] at h'
      rw [h']
    | ok x =>
      rw [hv] at h'
      simp only at h'
      by_cases hkx : k = x.communityID
      · subst hkx
        rw [admission_get_self_existing b s x c h] at h'
        split at h' <;> simp only [Option.some.injEq] at h' <;> subst h' <;> rfl
      · rw [admission_get_other b s x k hkx, h] at h'
        simp only [Option.some.injEq] at h'
        rw [h']
  | cleanup communityID remoteAddr =>
    simp only [step] at h'
    by_cases hkx : k = communityID
    · subst hkx
      rw [cleanup_get_self s _ _ c h] at h'
      split at h'
      · simp at h'
      · simp only [Option.some.injEq] at h'
        subst h'
        rfl
    · rw [cleanup_get_other s _ _ k hkx, h] at h'
      simp only [Option.some.injEq] at h'
      rw [h']

theorem run_password (b : Bcrypt) (k : String) (steps : List Step) (s : Communities)
    (c : community) (h : mapGet s k = some c) (halive : aliveAlong b k s steps = true) :
    ∃ c', mapGet (run b s steps) k = some c' ∧ c'.password = c.password := by
  induction steps generalizing s c with
  | nil => exact ⟨c, h, rfl⟩
  | cons t steps ih =>
    simp only [aliveAlong, Bool.and_eq_true] at halive
    obtain ⟨_, hrest⟩ := halive
    have hsome : (mapGet (step b s t) k).isSome = true := by
      cases steps with
      | nil => exact hrest
      | cons t' steps' =>
        simp only [aliveAlong, Bool.and_eq_true] at hrest
        exact hrest.1
    obtain ⟨c₁, hc₁⟩ := Option.isSome_iff_exists.mp hsome
    obtain ⟨c', hc', hp⟩ := ih (step b s t) c₁ hc₁ hrest
    exact ⟨c', hc', by rw [hp, step_password b s t k c c₁ h hc₁]⟩

theorem handleRequest_of_validate (b : Bcrypt) (s : Communities) (r : Request) (x : Session)
    (hv : validate b r = .ok x) :
    handleRequest b s r =
      match admission b s x with
      | (s1, some e) => (cleanup s1 x.communityID x.remoteAddr, .closed e)
      | (s1, none) => (s1, .admitted x) := by
  simp [handleRequest, hv]

theorem cleanup_conns_self (s : Communities) (communityID remoteAddr : String) :
    mapGet (index (cleanup s communityID remoteAddr) communityID).conns remoteAddr = none := by
  cases h : mapGet s communityID with
  | none =>
    rw [cleanup_absent s _ _ h]
    simp [index, h, mapGet]
  | some c =>
    simp only [index]
    rw [cleanup_get_self s _ _ c h]
    split
    · simp [mapGet]
    · simp [mapGet_mapDelete_self]

/-- C2: with an exact verifier, let a first request create a community with
password `P` (hash `x₀.hashedPassword`), and let `s` be any later state reached
while the community stays in the map.  The stored verifier in `s` is still the
hash generated from the first joiner's password.  A later request for the
community that reaches the admission with a password other than `P` panics with
the wrong-password error, the admission leaves the map as it was, and after the
handler has finished the connection is not registered and the verifier is not
replaced; one that presents `P` is admitted, is stored in the community's
connection map under its remote address, and the verifier is still the same. -/
theorem password_admission (b : Bcrypt) (hb : b.Exact) (s₀ s : Communities)
    (first later : Request) (x₀ x : Session) (steps : List Step)
    (hfirst : validate b first = .ok x₀) (hnew : mapGet s₀ x₀.communityID = none)
    (halive : aliveAlong b x₀.communityID (step b s₀ (.request first)) steps = true)
    (hs : s = run b (step b s₀ (.request first)) steps)
    (hlater : validate b later = .ok x) (hsame : x.communityID = x₀.communityID) :
    b.GenerateFromPassword x₀.password first.entropy = .ok x₀.hashedPassword ∧
    (index s x₀.communityID).password = x₀.hashedPassword ∧
    (x.password ≠ x₀.password →
      (handleRequest b s later).2 = .closed .errWrongPassword ∧
      admission b s x = (s, some .errWrongPassword) ∧
      mapGet (index (handleRequest b s later).1 x₀.communityID).conns x.remoteAddr = none ∧
      ∀ c, mapGet (handleRequest b s later).1 x₀.communityID = some c →
        c.password = x₀.hashedPassword) ∧
    (x.password = x₀.password →
      (handleRequest b s later).2 = .admitted x ∧
      ∃ c, mapGet (handleRequest b s later).1 x₀.communityID = some c ∧
        c.password = x₀.hashedPassword ∧ mapGet c.conns x.remoteAddr = some x.conn) := by
  have hgen := (validate_hash b first x₀ hfirst).1
  have hown : b.CompareHashAndPassword x₀.hashedPassword x₀.password = true :=
    hb.sound _ _ _ hgen
  have h1 : mapGet (step b s₀ (.request first)) x₀.communityID =
      some { password := x₀.hashedPassword, conns := [(x₀.remoteAddr, x₀.conn)] } := by
    simp only [step, hfirst]
    rw [admission_get_self_absent b s₀ x₀ hnew, hown]
    simp
  obtain ⟨c', hc', hp⟩ := run_password b x₀.communityID steps _ _ h1 halive
  rw [← hs] at hc'
  simp only at hp
  have hcx : mapGet s x.communityID = some c' := by rw [hsame]; exact hc'
  have hcmp : b.CompareHashAndPassword c'.password x.password = true ↔
      x.password = x₀.password := by
    rw [hp]
    exact hb _ _ _ hgen _
  refine ⟨hgen, by rw [index_of_get hc', hp], ?_, ?_⟩
  · intro hne
    have hfalse : ¬ b.CompareHashAndPassword c'.password x.password = true :=
      fun h => hne (hcmp.mp h)
    have hadm : admission b s x = (s, some .errWrongPassword) := by
      rw [admission_existing b s x c' hcx]
      simp [hfalse]
    have hreq : handleRequest b s later =
        (cleanup s x.communityID x.remoteAddr, .closed .errWrongPassword) := by
      rw [handleRequest_of_validate b s later x hlater, hadm]
    refine ⟨by rw [hreq], hadm, ?_, ?_⟩
    · rw [hreq, ← hsame]
      exact cleanup_conns_self s _ _
    · intro c hc
      rw [hreq, ← hsame] at hc
      simp only at hc
      rw [cleanup_get_self s _ _ c' hcx] at hc
      split at hc
      · simp at hc
      · simp only [Option.some.injEq] at hc
        subst hc
        exact hp
  · intro heq
    have htrue : b.CompareHashAndPassword c'.password x.password = true := hcmp.mpr heq
    have hadm : admission b s x =
        (mapSet s x.communityID { c' with conns := mapSet c'.conns x.remoteAddr x.conn },
          none) := by
      rw [admission_existing b s x c' hcx]
      simp [htrue]
    have hreq : handleRequest b s later =
        (mapSet s x.communityID { c' with conns := mapSet c'.conns x.remoteAddr x.conn },
          .admitted x) := by
      rw [handleRequest_of_validate b s later x hlater, hadm]
    refine ⟨by rw [hreq],
      { c' with conns := mapSet c'.conns x.remoteAddr x.conn }, ?_, hp, ?_⟩
    · rw [hreq, ← hsame]
      exact mapGet_mapSet_self _ _ _
    · exact mapGet_mapSet_self _ _ _

/-- C2, witness: a community created with `pw`, a second member joining and
leaving, then a later request presenting `pw`. -/
theorem password_admission_witness :
    plainBcrypt.GenerateFromPassword "pw" 0 = .ok "pw" ∧
    (index [("c", { password := "pw", conns := [("10.0.0.1:5000", 0)] })] "c").password = "pw" ∧
    ("pw" ≠ "pw" →
      (handleRequest plainBcrypt [("c", { password := "pw", conns := [("10.0.0.1:5000", 0)] })]
        (joinRequest "/c" "pw" "10.0.0.3:5000" 2)).2 = .closed .errWrongPassword ∧
      admission plainBcrypt [("c", { password := "pw", conns := [("10.0.0.1:5000", 0)] })]
        ⟨"c", "pw", "pw", "10.0.0.3:5000", 2⟩ =
          ([("c", { password := "pw", conns := [("10.0.0.1:5000", 0)] })],
            some .errWrongPassword) ∧
      mapGet (index (handleRequest plainBcrypt
        [("c", { password := "pw", conns := [("10.0.0.1:5000", 0)] })]
        (joinRequest "/c" "pw" "10.0.0.3:5000" 2)).1 "c").conns "10.0.0.3:5000" = none ∧
      ∀ c, mapGet (handleRequest plainBcrypt
        [("c", { password := "pw", conns := [("10.0.0.1:5000", 0)] })]
        (joinRequest "/c" "pw" "10.0.0.3:5000" 2)).1 "c" = some c → c.password = "pw") ∧
    ("pw" = "pw" →
      (handleRequest plainBcrypt [("c", { password := "pw", conns := [("10.0.0.1:5000", 0)] })]
        (joinRequest "/c" "pw" "10.0.0.3:5000" 2)).2 =
          .admitted ⟨"c", "pw", "pw", "10.0.0.3:5000", 2⟩ ∧
      ∃ c, mapGet (handleRequest plainBcrypt
        [("c", { password := "pw", conns := [("10.0.0.1:5000", 0)] })]
        (joinRequest "/c" "pw" "10.0.0.3:5000" 2)).1 "c" = some c ∧
        c.password = "pw" ∧ mapGet c.conns "10.0.0.3:5000" = some 2) :=
  password_admission plainBcrypt plainBcrypt_exact [] _
    (joinRequest "/c" "pw" "10.0.0.1:5000" 0) (joinRequest "/c" "pw" "10.0.0.3:5000" 2)
    ⟨"c", "pw", "pw", "10.0.0.1:5000", 0⟩ ⟨"c", "pw", "pw", "10.0.0.3:5000", 2⟩
    [.request (joinRequest "/c" "pw" "10.0.0.2:5000" 1), .cleanup "c" "10.0.0.2:5000"]
    (by decide) (by decide) (by decide) (by decide) (by decide) (by decide)

theorem index_conns_admission (b : Bcrypt) (s : Communities) (x : Session)
    (communityID k : String) (h : communityID ≠ x.communityID ∨ k ≠ x.remoteAddr) :
    mapGet (index (admission b s x).1 communityID).conns k =
      mapGet (index s communityID).conns k := by
  by_cases hc : communityID = x.communityID
  · subst hc
    have hk : k ≠ x.remoteAddr := h.resolve_left (fun h => h rfl)
    simp only [index]
    cases hg : mapGet s x.communityID with
    | none =>
      rw [admission_get_self_absent b s x hg]
      split <;> simp [mapGet, Ne.symm hk]
    | some c =>
      rw [admission_get_self_existing b s x c hg]
      split <;> simp [mapGet_mapSet_ne _ _ _ _ hk]
  · simp only [index, admission_get_other b s x communityID hc]

theorem index_conns_cleanup (s : Communities) (communityID remoteAddr communityID' k : String)
    (h : communityID' ≠ communityID ∨ k ≠ remoteAddr) :
    mapGet (index (cleanup s communityID remoteAddr) communityID').conns k =
      mapGet (index s communityID').conns k := by
  by_cases hc : communityID' = communityID
  · subst hc
    have hk : k ≠ remoteAddr := h.resolve_left (fun h => h rfl)
    simp only [index]
    cases hg : mapGet s communityID' with
    | none => rw [cleanup_absent s _ _ hg, hg]
    | some c =>
      rw [cleanup_get_self s _ _ c hg]
      have hdel := mapGet_mapDelete_ne c.conns remoteAddr k hk
      split
      · rename_i hlen
        have hnil : mapDelete c.conns remoteAddr = [] :=
          List.length_eq_zero.mp (Nat.le_zero.mp hlen)
        rw [hnil] at hdel
        simp [← hdel, mapGet]
      · simp [hdel]
  · simp only [index, cleanup_get_other s _ _ communityID' hc]

/-- C3: in every state reached from the empty map by admissions and cleanups,
taken between locked regions, a community is in the map if and only if its
connection map is non-empty; and when the only keys of a community's connection
map are `remoteAddr`, the cleanup for `remoteAddr` (one locked region) leaves the
map without that community. -/
theorem community_lifecycle (b : Bcrypt) (hb : b.Sound) (steps : List Step) :
    (∀ communityID, (mapGet (run b [] steps) communityID).isSome = true ↔
      (index (run b [] steps) communityID).conns ≠ []) ∧
    (∀ communityID remoteAddr c, mapGet (run b [] steps) communityID = some c →
      (∀ e ∈ c.conns, e.1 = remoteAddr) →
      mapGet (cleanup (run b [] steps) communityID remoteAddr) communityID = none) := by
  have hinv := run_noEmpty b hb steps [] noEmpty_nil
  refine ⟨fun communityID => ?_, fun communityID remoteAddr c hc hall => ?_⟩
  · cases hg : mapGet (run b [] steps) communityID with
    | none => simp [index, hg]
    | some c => simpa [index, hg] using hinv _ _ hg
  · rw [cleanup_get_self _ _ _ c hc]
    have hnil : mapDelete c.conns remoteAddr = [] := by
      simp only [mapDelete, List.filter_eq_nil_iff]
      intro e he
      simp [hall e he]
    simp [hnil]

/-- C3, witness: two members join the community "c" and leave it again. -/
theorem community_lifecycle_witness :
    plainBcrypt.Sound ∧
    ((mapGet (run plainBcrypt [] [.request (joinRequest "/c" "pw" "10.0.0.1:5000" 0),
        .request (joinRequest "/c" "pw" "10.0.0.2:5000" 1),
        .cleanup "c" "10.0.0.1:5000"]) "c").isSome = true ↔
      (index (run plainBcrypt [] [.request (joinRequest "/c" "pw" "10.0.0.1:5000" 0),
        .request (joinRequest "/c" "pw" "10.0.0.2:5000" 1),
        .cleanup "c" "10.0.0.1:5000"]) "c").conns ≠ []) ∧
    mapGet (cleanup (run plainBcrypt [] [.request (joinRequest "/c" "pw" "10.0.0.1:5000" 0),
        .request (joinRequest "/c" "pw" "10.0.0.2:5000" 1),
        .cleanup "c" "10.0.0.1:5000"]) "c" "10.0.0.2:5000") "c" = none :=
  ⟨plainBcrypt_exact.sound,
    (community_lifecycle plainBcrypt plainBcrypt_exact.sound _).1 "c",
    (community_lifecycle plainBcrypt plainBcrypt_exact.sound _).2 "c" "10.0.0.2:5000"
      { password := "pw", conns := [("10.0.0.2:5000", 1)] } (by decide) (by decide)⟩

/-- C5, as amended: a request whose final path segment is blank ends with the
missing-community-ID error whatever its password is, a request with a community
ID and a blank password ends with the missing-password error, and both leave the
map as it was; in a reachable state, a request whose password does not verify
against the existing community ends with the wrong-password error and leaves the
map as it was, provided its remote address is not a key of that community's
connection map. -/
theorem credential_errors (b : Bcrypt) (hb : b.Sound) (steps : List Step) (s : Communities)
    (hs : s = run b [] steps) (r : Request) :
    (TrimSpace ((Split r.URL.Path '/').getLastD "") = "" →
      handleRequest b s r = (s, .closed .errMissingCommunityID)) ∧
    (∀ communityID, communityIDOf r.URL.Path = .ok communityID →
      TrimSpace (r.URL.Query.Get "password") = "" →
      handleRequest b s r = (s, .closed .errMissingPassword)) ∧
    (∀ x c, validate b r = .ok x → mapGet s x.communityID = some c →
      b.CompareHashAndPassword c.password x.password = false →
      mapGet c.conns x.remoteAddr = none →
      handleRequest b s r = (s, .closed .errWrongPassword)) := by
  refine ⟨fun hblank => ?_, fun communityID hid hblank => ?_, fun x c hv hc hcmp hfresh => ?_⟩
  · have hid : communityIDOf r.URL.Path = .error .errMissingCommunityID := by
      rw [communityIDOf_eq]
      rw [Split, getLastD_map_mk] at hblank
      rw [if_pos hblank]
    simp [handleRequest, validate, hid]
  · simp [handleRequest, validate, hid, passwordOf, hblank]
  · have hne : c.conns ≠ [] := by
      have hinv := run_noEmpty b hb steps [] noEmpty_nil
      rw [← hs] at hinv
      exact hinv _ _ hc
    have hadm : admission b s x = (s, some .errWrongPassword) := by
      rw [admission_existing b s x c hc]
      simp [hcmp]
    rw [handleRequest_of_validate b s r x hv, hadm]
    simp only
    rw [cleanup_existing s _ _ c hc, mapDelete_of_absent _ _ hfresh]
    have hlen : ¬ c.conns.length ≤ 0 := by
      intro h
      exact hne (List.length_eq_zero.mp (Nat.le_zero.mp h))
    rw [if_neg hlen, mapSet_of_present s _ _ hc]

/-- C5, witness: a wrong password presented from a new address to the community
created by the first request. -/
theorem credential_errors_witness :
    plainBcrypt.Sound ∧
    handleRequest plainBcrypt [("c", { password := "pw", conns := [("10.0.0.1:5000", 0)] })]
        (joinRequest "/c" "bad" "10.0.0.2:5000" 1) =
      ([("c", { password := "pw", conns := [("10.0.0.1:5000", 0)] })],
        .closed .errWrongPassword) ∧
    handleRequest plainBcrypt [("c", { password := "pw", conns := [("10.0.0.1:5000", 0)] })]
        (joinRequest "/" " " "10.0.0.2:5000" 1) =
      ([("c", { password := "pw", conns := [("10.0.0.1:5000", 0)] })],
        .closed .errMissingCommunityID) ∧
    handleRequest plainBcrypt [("c", { password := "pw", conns := [("10.0.0.1:5000", 0)] })]
        (joinRequest "/c" " " "10.0.0.2:5000" 1) =
      ([("c", { password := "pw", conns := [("10.0.0.1:5000", 0)] })],
        .closed .errMissingPassword) :=
  ⟨plainBcrypt_exact.sound,
    (credential_errors plainBcrypt plainBcrypt_exact.sound
      [.request (joinRequest "/c" "pw" "10.0.0.1:5000" 0)] _ (by decide)
      (joinRequest "/c" "bad" "10.0.0.2:5000" 1)).2.2
      ⟨"c", "bad", "bad", "10.0.0.2:5000", 1⟩
      { password := "pw", conns := [("10.0.0.1:5000", 0)] }
      (by decide) (by decide) (by decide) (by decide),
    (credential_errors plainBcrypt plainBcrypt_exact.sound
      [.request (joinRequest "/c" "pw" "10.0.0.1:5000" 0)] _ (by decide)
      (joinRequest "/" " " "10.0.0.2:5000" 1)).1 (by decide),
    (credential_errors plainBcrypt plainBcrypt_exact.sound
      [.request (joinRequest "/c" "pw" "10.0.0.1:5000" 0)] _ (by decide)
      (joinRequest "/c" " " "10.0.0.2:5000" 1)).2.1 "c" (by decide) (by decide)⟩

/-- C5, counterexample: the community "c" has one member, registered under
10.0.0.1:5000; a request from the same remote address with a wrong password ends
with the wrong-password error, and its cleanup removes that member and, with it,
the community. -/
theorem wrong_password_removes_member :
    run plainBcrypt [] [.request (joinRequest "/c" "pw" "10.0.0.1:5000" 0)] =
      [("c", { password := "pw", conns := [("10.0.0.1:5000", 0)] })] ∧
    handleRequest plainBcrypt [("c", { password := "pw", conns := [("10.0.0.1:5000", 0)] })]
        (joinRequest "/c" "bad" "10.0.0.1:5000" 1) =
      ([], .closed .errWrongPassword) := by
  decide

/-- C7, as amended: an admitted connection is stored under the remote address of
its request; an admission changes no entry of any connection map other than the
one under that address in that community, and a cleanup changes no entry other
than the one under its own address in its own community. -/
theorem registration_keyed_by_address (b : Bcrypt) (s : Communities) (r : Request)
    (x : Session) (hv : validate b r = .ok x) :
    x.remoteAddr = r.RemoteAddr ∧
    (∀ s', admission b s x = (s', none) →
      mapGet (index s' x.communityID).conns r.RemoteAddr = some x.conn) ∧
    (∀ communityID k, communityID ≠ x.communityID ∨ k ≠ r.RemoteAddr →
      mapGet (index (admission b s x).1 communityID).conns k =
        mapGet (index s communityID).conns k) ∧
    (∀ communityID k, communityID ≠ x.communityID ∨ k ≠ r.RemoteAddr →
      mapGet (index (cleanup s x.communityID r.RemoteAddr) communityID).conns k =
        mapGet (index s communityID).conns k) := by
  have haddr := (validate_hash b r x hv).2.2.2.2
  refine ⟨haddr, fun s' hadm => ?_, fun communityID k h => ?_, fun communityID k h => ?_⟩
  · rw [← haddr]
    simp only [index]
    cases hg : mapGet s x.communityID with
    | none =>
      rw [admission_absent b s x hg] at hadm
      split at hadm
      · simp only [Prod.mk.injEq, and_true] at hadm
        subst hadm
        simp [mapGet_mapSet_self, mapGet]
      · simp at hadm
    | some c =>
      rw [admission_existing b s x c hg] at hadm
      split at hadm
      · simp only [Prod.mk.injEq, and_true] at hadm
        subst hadm
        simp [mapGet_mapSet_self]
      · simp at hadm
  · rw [← haddr] at h
    exact index_conns_admission b s x communityID k h
  · rw [← haddr] at h ⊢
    exact index_conns_cleanup s _ _ communityID k h

/-- C7, witness: a second member joins the community "c" from another address. -/
theorem registration_keyed_by_address_witness :
    validate plainBcrypt (joinRequest "/c" "pw" "10.0.0.2:5000" 1) =
      .ok ⟨"c", "pw", "pw", "10.0.0.2:5000", 1⟩ ∧
    mapGet (index (admission plainBcrypt
        [("c", { password := "pw", conns := [("10.0.0.1:5000", 0)] })]
        ⟨"c", "pw", "pw", "10.0.0.2:5000", 1⟩).1 "c").conns "10.0.0.1:5000" =
      mapGet (index [("c", { password := "pw", conns := [("10.0.0.1:5000", 0)] })] "c").conns
        "10.0.0.1:5000" :=
  ⟨by decide,
    (registration_keyed_by_address plainBcrypt
      [("c", { password := "pw", conns := [("10.0.0.1:5000", 0)] })]
      (joinRequest "/c" "pw" "10.0.0.2:5000" 1) ⟨"c", "pw", "pw", "10.0.0.2:5000", 1⟩
      (by decide)).2.2.1 "c" "10.0.0.1:5000" (Or.inr (by decide))⟩

/-- C7, counterexample: a request from the remote address under which a member of
"c" is registered is admitted under that same key and takes the place of the
member's connection 0; the cleanup of connection 0 then removes the new
connection 1 and, with it, the community. -/
theorem same_address_replaces_member :
    handleRequest plainBcrypt [("c", { password := "pw", conns := [("10.0.0.1:5000", 0)] })]
        (joinRequest "/c" "pw" "10.0.0.1:5000" 1) =
      ([("c", { password := "pw", conns := [("10.0.0.1:5000", 1)] })],
        .admitted ⟨"c", "pw", "pw", "10.0.0.1:5000", 1⟩) ∧
    cleanup [("c", { password := "pw", conns := [("10.0.0.1:5000", 1)] })] "c" "10.0.0.1:5000" =
      [] := by
  decide

/-! ## Theorems: the message loop -/

theorem writtenTo_append (c : Conn) (tr tr' : List Op) :
    writtenTo c (tr ++ tr') = writtenTo c tr ++ writtenTo c tr' := by
  induction tr with
  | nil => rfl
  | cons o tr ih =>
    cases o with
    | WriteMessage c' t p =>
      by_cases h : c' = c
      · simp [writtenTo, h, ih]
      · simp [writtenTo, h, ih]
    | SetWriteDeadline c' t => simpa [writtenTo] using ih
    | Close c' => simpa [writtenTo] using ih

theorem forward_ok (env : Env) (heartbeat : Nat) (m : String) (i : input)
    (order : List (String × Conn)) (tr : List Op)
    (hok : ∀ e ∈ order, e.1 ≠ m → ∀ k t,
      env.err k (.WriteMessage e.2 i.messageType i.p) = none ∧
      env.err k (.SetWriteDeadline e.2 t) = none) :
    (forward env heartbeat m i order tr).2 = none ∧
    ∀ c, writtenTo c (forward env heartbeat m i order tr).1 =
      writtenTo c tr ++
        List.replicate (order.countP (fun e => decide (e.1 ≠ m) && decide (e.2 = c))) i := by
  induction order generalizing tr with
  | nil => simp [forward]
  | cons e rest ih =>
    obtain ⟨id, conn⟩ := e
    have hrest : ∀ e ∈ rest, e.1 ≠ m → ∀ k t,
        env.err k (.WriteMessage e.2 i.messageType i.p) = none ∧
        env.err k (.SetWriteDeadline e.2 t) = none :=
      fun e he => hok e (List.mem_cons_of_mem _ he)
    by_cases hid : id = m
    · simp only [forward, hid, if_true]
      refine ⟨(ih tr hrest).1, fun c => ?_⟩
      rw [(ih tr hrest).2 c]
      simp [List.countP_cons]
    · have hhead := hok (id, conn) (List.mem_cons_self _ _) hid
      simp only [forward, hid, if_false, (hhead _ 0).1, (hhead _ _).2]
      refine ⟨(ih _ hrest).1, fun c => ?_⟩
      rw [(ih _ hrest).2 c, writtenTo_append, writtenTo_append]
      by_cases hc : conn = c
      · simp [writtenTo, hc, List.countP_cons, hid, List.replicate_succ]
      · simp [writtenTo, hc, List.countP_cons, hid]

theorem forward_append (env : Env) (heartbeat : Nat) (m : String) (i : input)
    (pre rest : List (String × Conn)) (tr : List Op) :
    forward env heartbeat m i (pre ++ rest) tr =
      match forward env heartbeat m i pre tr with
      | (tr1, some e) => (tr1, some e)
      | (tr1, none) => forward env heartbeat m i rest tr1 := by
  induction pre generalizing tr with
  | nil => simp [forward]
  | cons e pre ih =>
    obtain ⟨id, conn⟩ := e
    by_cases hid : id = m
    · simp only [List.cons_append, forward, hid, if_true]
      exact ih tr
    · simp only [List.cons_append, forward, hid, if_false]
      cases env.err tr.length (.WriteMessage conn i.messageType i.p) with
      | some e => rfl
      | none =>
        simp only
        cases env.err (tr ++ [Op.WriteMessage conn i.messageType i.p]).length
            (.SetWriteDeadline conn
              (env.now (tr ++ [Op.WriteMessage conn i.messageType i.p]).length + heartbeat)) with
        | some e => rfl
        | none => exact ih _

theorem mapGet_mem {α : Type} (m : List (String × α)) (k : String) (v : α)
    (h : mapGet m k = some v) : (k, v) ∈ m := by
  induction m with
  | nil => simp [mapGet] at h
  | cons e m ih =>
    obtain ⟨k', v'⟩ := e
    by_cases hk : k' = k
    · simp only [mapGet, hk, if_true, Option.some.injEq] at h
      simp [hk, h]
    · simp only [mapGet, hk, if_false] at h
      exact List.mem_cons_of_mem _ (ih h)

theorem mem_mapGet {α : Type} (m : List (String × α)) (k : String) (v : α)
    (hkeys : WellKeyed m) (h : (k, v) ∈ m) : mapGet m k = some v := by
  induction m with
  | nil => simp at h
  | cons e m ih =>
    obtain ⟨k', v'⟩ := e
    simp only [WellKeyed, List.map_cons, List.nodup_cons] at hkeys
    rcases List.mem_cons.mp h with heq | hmem
    · simp only [Prod.mk.injEq] at heq
      simp [mapGet, heq.1, heq.2]
    · have hne : k' ≠ k := by
        intro hk
        apply hkeys.1
        rw [hk]
        exact List.mem_map_of_mem Prod.fst hmem
      simp only [mapGet, hne, if_false]
      exact ih hkeys.2 hmem

theorem countP_recipient_absent (m : String) (c : Conn) (conns : List (String × Conn))
    (h : ∀ r, r ≠ m → (r, c) ∉ conns) :
    conns.countP (fun e => decide (e.1 ≠ m) && decide (e.2 = c)) = 0 := by
  rw [List.countP_eq_zero]
  intro e he hp
  simp only [ne_eq, Bool.and_eq_true, decide_eq_true_eq] at hp
  obtain ⟨r, c'⟩ := e
  simp only at hp
  exact h r hp.1 (hp.2 ▸ he)

theorem countP_recipient_present (m r : String) (rc : Conn) (conns : List (String × Conn))
    (hconn : (conns.map Prod.snd).Nodup) (hr : r ≠ m) (hmem : (r, rc) ∈ conns) :
    conns.countP (fun e => decide (e.1 ≠ m) && decide (e.2 = rc)) = 1 := by
  induction conns with
  | nil => simp at hmem
  | cons e t ih =>
    simp only [List.map_cons, List.nodup_cons] at hconn
    rcases List.mem_cons.mp hmem with heq | hin
    · subst heq
      have hzero : t.countP (fun e => decide (e.1 ≠ m) && decide (e.2 = rc)) = 0 := by
        rw [List.countP_eq_zero]
        intro e he hp
        simp only [ne_eq, Bool.and_eq_true, decide_eq_true_eq] at hp
        apply hconn.1
        simp only
        rw [← hp.2]
        exact List.mem_map_of_mem Prod.snd he
      rw [List.countP_cons, hzero]
      simp [hr]
    · have hne : e.2 ≠ rc := by
        intro he
        apply hconn.1
        rw [he]
        exact List.mem_map_of_mem Prod.snd hin
      rw [List.countP_cons, ih hconn.2 hin]
      simp [hne]

theorem ping_ok (env : Env) (heartbeat : Nat) (conn : Conn) (tr : List Op)
    (hok : ∀ k op, env.err k op = none) :
    ping env heartbeat conn tr =
      (tr ++ [.SetWriteDeadline conn (env.now tr.length + heartbeat)] ++
        [.WriteMessage conn PingMessage []], none) := by
  simp only [ping, hok]

theorem loop_events_ok (env : Env) (heartbeat : Nat) (m : String) (mc : Conn)
    (hok : ∀ k op, env.err k op = none) (evs : List Event) (tr : List Op) (c : Conn) (n : Nat)
    (herr : ∀ v, Event.errs v ∉ evs)
    (hn : ∀ i order, Event.inputs i order ∈ evs →
      order.countP (fun e => decide (e.1 ≠ m) && decide (e.2 = c)) = n) :
    (loop env heartbeat m mc evs tr).2 = none ∧
    writtenTo c (loop env heartbeat m mc evs tr).1 =
      writtenTo c tr ++ (evs.map (writesOf n c mc)).flatten := by
  induction evs generalizing tr with
  | nil => simp [loop]
  | cons e evs ih =>
    have herr' : ∀ v, Event.errs v ∉ evs :=
      fun v hv => herr v (List.mem_cons_of_mem _ hv)
    have hn' : ∀ i order, Event.inputs i order ∈ evs →
        order.countP (fun e => decide (e.1 ≠ m) && decide (e.2 = c)) = n :=
      fun i order h => hn i order (List.mem_cons_of_mem _ h)
    cases e with
    | errs v => exact absurd (List.mem_cons_self _ _) (herr v)
    | inputs i order =>
      have hf := forward_ok env heartbeat m i order tr (fun _ _ _ k t => ⟨hok k _, hok k _⟩)
      have hstep : loop env heartbeat m mc (Event.inputs i order :: evs) tr =
          loop env heartbeat m mc evs (forward env heartbeat m i order tr).1 := by
        simp only [loop]
        cases hfw : forward env heartbeat m i order tr with
        | mk tr1 err =>
          rw [hfw] at hf
          simp only at hf
          simp [hf.1]
      rw [hstep]
      have hrest := ih (forward env heartbeat m i order tr).1 herr' hn'
      refine ⟨hrest.1, ?_⟩
      rw [hrest.2, hf.2 c, hn i order (List.mem_cons_self _ _)]
      simp [writesOf, List.append_assoc]
    | pings =>
      have hstep : loop env heartbeat m mc (Event.pings :: evs) tr =
          loop env heartbeat m mc evs
            (tr ++ [.SetWriteDeadline mc (env.now tr.length + heartbeat)] ++
              [.WriteMessage mc PingMessage []]) := by
        simp only [loop, ping_ok env heartbeat mc tr hok]
      rw [hstep]
      have hrest := ih (tr ++ [.SetWriteDeadline mc (env.now tr.length + heartbeat)] ++
        [.WriteMessage mc PingMessage []]) herr' hn'
      refine ⟨hrest.1, ?_⟩
      rw [hrest.2, writtenTo_append, writtenTo_append]
      by_cases hc : mc = c
      · simp [writtenTo, writesOf, hc]
      · simp [writtenTo, writesOf, hc]

theorem scheduled_inputs (conns : List (String × Conn)) (evs : List Event)
    (h : ∀ e ∈ evs, scheduled conns e = true) (i : input) (order : List (String × Conn))
    (hin : Event.inputs i order ∈ evs) : order.Perm conns := by
  have := h _ hin
  simpa [scheduled] using this

theorem scheduled_no_errs (conns : List (String × Conn)) (evs : List Event)
    (h : ∀ e ∈ evs, scheduled conns e = true) (v : Option Err) : Event.errs v ∉ evs := by
  intro hin
  have := h _ hin
  simp [scheduled] at this

theorem flatten_writesOf_recipient (c mc : Conn) (hc : mc ≠ c) (evs : List Event)
    (herr : ∀ v, Event.errs v ∉ evs) :
    (evs.map (writesOf 1 c mc)).flatten = inputsOf evs := by
  induction evs with
  | nil => rfl
  | cons e evs ih =>
    have ih' := ih (fun v hv => herr v (List.mem_cons_of_mem _ hv))
    cases e with
    | errs v => exact absurd (List.mem_cons_self _ _) (herr v)
    | inputs i order =>
      rw [List.map_cons, List.flatten_cons, ih']
      rfl
    | pings =>
      rw [List.map_cons, List.flatten_cons, ih']
      simp [writesOf, hc, inputsOf]

theorem flatten_writesOf_self (mc : Conn) (evs : List Event) :
    (evs.map (writesOf 0 mc mc)).flatten =
      List.replicate (pingsOf evs) { messageType := PingMessage, p := [] } := by
  induction evs with
  | nil => rfl
  | cons e evs ih =>
    cases e with
    | errs v =>
      rw [List.map_cons, List.flatten_cons, ih]
      rfl
    | inputs i order =>
      rw [List.map_cons, List.flatten_cons, ih]
      rfl
    | pings =>
      rw [List.map_cons, List.flatten_cons, ih]
      simp [writesOf, pingsOf, List.replicate_succ]

theorem flatten_writesOf_other (c mc : Conn) (hc : mc ≠ c) (evs : List Event) :
    (evs.map (writesOf 0 c mc)).flatten = [] := by
  induction evs with
  | nil => rfl
  | cons e evs ih =>
    cases e with
    | errs v =>
      rw [List.map_cons, List.flatten_cons, ih]
      rfl
    | inputs i order =>
      rw [List.map_cons, List.flatten_cons, ih]
      rfl
    | pings =>
      rw [List.map_cons, List.flatten_cons, ih]
      simp [writesOf, hc]

theorem others_length (conns : List (String × Conn)) (m : String) (mc : Conn)
    (hkeys : WellKeyed conns) (hm : (m, mc) ∈ conns) :
    (conns.filter (fun e => decide (e.1 ≠ m))).length + 1 = conns.length := by
  induction conns with
  | nil => simp at hm
  | cons e t ih =>
    simp only [WellKeyed, List.map_cons, List.nodup_cons] at hkeys
    rcases List.mem_cons.mp hm with heq | hin
    · subst heq
      have hall : t.filter (fun e => decide (e.1 ≠ m)) = t := by
        rw [List.filter_eq_self]
        intro e he
        simp only [ne_eq, decide_eq_true_eq]
        intro hem
        apply hkeys.1
        simp only
        rw [← hem]
        exact List.mem_map_of_mem Prod.fst he
      rw [List.filter_cons, hall]
      simp
    · have hne : e.1 ≠ m := by
        intro hem
        apply hkeys.1
        rw [hem]
        exact List.mem_map_of_mem Prod.fst hin
      rw [List.filter_cons]
      simp only [ne_eq, hne, not_false_eq_true, decide_True, if_true, List.length_cons]
      have := ih hkeys.2 hin
      simp only [ne_eq] at this
      omega

/-- C1, as amended: let `conns` be the connection map of a community (distinct
keys, distinct connections) that does not change, let `m` be a member with
connection `mc`, and let no operation on a connection fail.  Let the handler of
`m` receive any sequence of events made of messages from `m`, each forwarded in
some order of the map, and of ticks of its ping timer, interleaved in any way.
The handler does not panic; every other member's connection is written exactly
the received messages, with their types and payloads, in the order received; the
writes to the connection of `m` are the ping frames, one per tick, and none of
the received messages; nothing is written to any other connection; and the other
members are all but one of the members. -/
theorem fan_out (env : Env) (heartbeat : Nat) (conns : List (String × Conn)) (m : String)
    (mc : Conn) (hkeys : WellKeyed conns) (hconn : (conns.map Prod.snd).Nodup)
    (hm : mapGet conns m = some mc) (hok : ∀ k op, env.err k op = none)
    (evs : List Event) (hevs : ∀ e ∈ evs, scheduled conns e = true) :
    (loop env heartbeat m mc evs []).2 = none ∧
    (∀ r rc, r ≠ m → mapGet conns r = some rc →
      writtenTo rc (loop env heartbeat m mc evs []).1 = inputsOf evs) ∧
    writtenTo mc (loop env heartbeat m mc evs []).1 =
      List.replicate (pingsOf evs) { messageType := PingMessage, p := [] } ∧
    (∀ c, c ≠ mc → (∀ r, r ≠ m → mapGet conns r ≠ some c) →
      writtenTo c (loop env heartbeat m mc evs []).1 = []) ∧
    (conns.filter (fun e => decide (e.1 ≠ m))).length + 1 = conns.length := by
  have hmem := mapGet_mem conns m mc hm
  have herr := scheduled_no_errs conns evs hevs
  have hperm := scheduled_inputs conns evs hevs
  have hself : ∀ r, r ≠ m → (r, mc) ∉ conns := by
    intro r hr hin
    apply hr
    have := List.inj_on_of_nodup_map hconn hin hmem rfl
    simpa using congrArg Prod.fst this
  have hzero : ∀ c, (∀ r, r ≠ m → (r, c) ∉ conns) → ∀ i order,
      Event.inputs i order ∈ evs →
      order.countP (fun e => decide (e.1 ≠ m) && decide (e.2 = c)) = 0 := by
    intro c hc i order hin
    rw [(hperm i order hin).countP_eq]
    exact countP_recipient_absent m c conns hc
  refine ⟨?_, fun r rc hr hrc => ?_, ?_, fun c hcm hc => ?_,
    others_length conns m mc hkeys hmem⟩
  · exact (loop_events_ok env heartbeat m mc hok evs [] mc 0 herr (hzero mc hself)).1
  · have hin := mapGet_mem conns r rc hrc
    have hne : mc ≠ rc := by
      intro h
      exact hself r hr (h ▸ hin)
    have hn : ∀ i order, Event.inputs i order ∈ evs →
        order.countP (fun e => decide (e.1 ≠ m) && decide (e.2 = rc)) = 1 := by
      intro i order hi
      rw [(hperm i order hi).countP_eq]
      exact countP_recipient_present m r rc conns hconn hr hin
    rw [(loop_events_ok env heartbeat m mc hok evs [] rc 1 herr hn).2,
      flatten_writesOf_recipient rc mc hne evs herr]
    rfl
  · rw [(loop_events_ok env heartbeat m mc hok evs [] mc 0 herr (hzero mc hself)).2,
      flatten_writesOf_self]
    rfl
  · have habs : ∀ r, r ≠ m → (r, c) ∉ conns :=
      fun r hr hin => hc r hr (mem_mapGet conns r c hkeys hin)
    rw [(loop_events_ok env heartbeat m mc hok evs [] c 0 herr (hzero c habs)).2,
      flatten_writesOf_other c mc (Ne.symm hcm)]
    rfl

/-- C1, witness: a community of three members; the member at 10.0.0.1:5000 sends
two messages, forwarded in two different orders, with a tick of the ping timer
between them. -/
theorem fan_out_witness :
    writtenTo 1 (loop quietEnv 10 "10.0.0.1:5000" 0
      [.inputs ⟨1, [104, 105]⟩
          [("10.0.0.1:5000", 0), ("10.0.0.2:5000", 1), ("10.0.0.3:5000", 2)],
        .pings,
        .inputs ⟨2, [0]⟩
          [("10.0.0.3:5000", 2), ("10.0.0.2:5000", 1), ("10.0.0.1:5000", 0)]] []).1 =
      [⟨1, [104, 105]⟩, ⟨2, [0]⟩] ∧
    writtenTo 0 (loop quietEnv 10 "10.0.0.1:5000" 0
      [.inputs ⟨1, [104, 105]⟩
          [("10.0.0.1:5000", 0), ("10.0.0.2:5000", 1), ("10.0.0.3:5000", 2)],
        .pings,
        .inputs ⟨2, [0]⟩
          [("10.0.0.3:5000", 2), ("10.0.0.2:5000", 1), ("10.0.0.1:5000", 0)]] []).1 =
      [⟨PingMessage, []⟩] :=
  ⟨(fan_out quietEnv 10
      [("10.0.0.1:5000", 0), ("10.0.0.2:5000", 1), ("10.0.0.3:5000", 2)] "10.0.0.1:5000" 0
      (by unfold WellKeyed; decide) (by decide) (by decide) (fun _ _ => rfl)
      [.inputs ⟨1, [104, 105]⟩
          [("10.0.0.1:5000", 0), ("10.0.0.2:5000", 1), ("10.0.0.3:5000", 2)],
        .pings,
        .inputs ⟨2, [0]⟩
          [("10.0.0.3:5000", 2), ("10.0.0.2:5000", 1), ("10.0.0.1:5000", 0)]]
      (by decide)).2.1 "10.0.0.2:5000" 1 (by decide) (by decide),
    (fan_out quietEnv 10
      [("10.0.0.1:5000", 0), ("10.0.0.2:5000", 1), ("10.0.0.3:5000", 2)] "10.0.0.1:5000" 0
      (by unfold WellKeyed; decide) (by decide) (by decide) (fun _ _ => rfl)
      [.inputs ⟨1, [104, 105]⟩
          [("10.0.0.1:5000", 0), ("10.0.0.2:5000", 1), ("10.0.0.3:5000", 2)],
        .pings,
        .inputs ⟨2, [0]⟩
          [("10.0.0.3:5000", 2), ("10.0.0.2:5000", 1), ("10.0.0.1:5000", 0)]]
      (by decide)).2.2.1⟩

/-- C1, counterexample: the community has the members at 10.0.0.1:5000
(connection 0) and at 10.0.0.2:5000 (connection 1) and nothing fails.  The handler
of the first receives one message from it and then a tick of its ping timer: the
other member is written exactly the message, and a ping frame is written to the
sender's own connection. -/
theorem ping_is_written_to_sender :
    loop quietEnv 10 "10.0.0.1:5000" 0
        [.inputs ⟨1, [104, 105]⟩ [("10.0.0.1:5000", 0), ("10.0.0.2:5000", 1)], .pings] [] =
      ([.WriteMessage 1 1 [104, 105], .SetWriteDeadline 1 11,
        .SetWriteDeadline 0 12, .WriteMessage 0 PingMessage []], none) ∧
    writtenTo 1 [.WriteMessage 1 1 [104, 105], .SetWriteDeadline 1 11,
        .SetWriteDeadline 0 12, .WriteMessage 0 PingMessage []] = [⟨1, [104, 105]⟩] ∧
    writtenTo 0 [.WriteMessage 1 1 [104, 105], .SetWriteDeadline 1 11,
        .SetWriteDeadline 0 12, .WriteMessage 0 PingMessage []] ≠ [] := by
  decide

/-- C4, as amended: in a forwarding step of the handler of session `x` (the
sender) in which the write to recipient `R` fails and nothing else does, the
handler of the sender panics.  The operations of the step are the forwarding to
the recipients visited before `R`, which all succeeds, followed by the closing of
the sender's own connection: no recipient visited after `R` is written and the
connection of `R` is not closed.  The sender is removed from its community and
the entry of `R` is left as it was. -/
theorem forward_failure_stops_sender (env : Env) (heartbeat : Nat) (s : Communities)
    (x : Session) (i : input) (pre post : List (String × Conn)) (R : String) (rc : Conn)
    (err : Err) (tr : List Op) (hR : R ≠ x.remoteAddr)
    (hfail : ∀ k, env.err k (.WriteMessage rc i.messageType i.p) = some err)
    (hgood : ∀ k op, (∀ t p, op ≠ .WriteMessage rc t p) → env.err k op = none)
    (hpre : ∀ a ∈ pre, a.2 ≠ rc) :
    serveInput env heartbeat s x i (pre ++ (R, rc) :: post) tr =
      (cleanup s x.communityID x.remoteAddr,
        (forward env heartbeat x.remoteAddr i pre tr).1 ++ [.Close x.conn], false) ∧
    (forward env heartbeat x.remoteAddr i pre tr).2 = none ∧
    (∀ c, writtenTo c ((forward env heartbeat x.remoteAddr i pre tr).1 ++ [.Close x.conn]) =
      writtenTo c tr ++ List.replicate
        (pre.countP (fun a => decide (a.1 ≠ x.remoteAddr) && decide (a.2 = c))) i) ∧
    mapGet (index (cleanup s x.communityID x.remoteAddr) x.communityID).conns x.remoteAddr =
      none ∧
    mapGet (index (cleanup s x.communityID x.remoteAddr) x.communityID).conns R =
      mapGet (index s x.communityID).conns R := by
  have hok := forward_ok env heartbeat x.remoteAddr i pre tr (by
    intro a ha _ k t
    refine ⟨hgood k _ ?_, hgood k _ (by simp)⟩
    intro t' p' h
    simp only [Op.WriteMessage.injEq] at h
    exact hpre a ha h.1)
  have hfw : forward env heartbeat x.remoteAddr i (pre ++ (R, rc) :: post) tr =
      ((forward env heartbeat x.remoteAddr i pre tr).1, some err) := by
    rw [forward_append]
    cases hp : forward env heartbeat x.remoteAddr i pre tr with
    | mk tr1 e1 =>
      rw [hp] at hok
      simp only at hok
      simp only [hok.1, forward, hR, if_false, hfail]
  refine ⟨?_, hok.1, fun c => ?_, cleanup_conns_self s _ _,
    index_conns_cleanup s _ _ _ _ (Or.inr hR)⟩
  · simp only [serveInput, hfw, disconnect, hgood _ (Op.Close x.conn) (by simp)]
  · rw [writtenTo_append, hok.2 c]
    simp [writtenTo]

/-- C4, witness: the sender S, then R whose connection is broken, then T. -/
theorem forward_failure_stops_sender_witness :
    serveInput (brokenPipeEnv 1) 10
        [("c", { password := "pw", conns := [("S", 0), ("R", 1), ("T", 2)] })]
        ⟨"c", "pw", "pw", "S", 0⟩ ⟨1, [104, 105]⟩ ([("S", 0)] ++ ("R", 1) :: [("T", 2)]) [] =
      (cleanup [("c", { password := "pw", conns := [("S", 0), ("R", 1), ("T", 2)] })] "c" "S",
        (forward (brokenPipeEnv 1) 10 "S" ⟨1, [104, 105]⟩ [("S", 0)] []).1 ++ [.Close 0],
        false) :=
  (forward_failure_stops_sender (brokenPipeEnv 1) 10
    [("c", { password := "pw", conns := [("S", 0), ("R", 1), ("T", 2)] })]
    ⟨"c", "pw", "pw", "S", 0⟩ ⟨1, [104, 105]⟩ [("S", 0)] [("T", 2)] "R" 1
    (.other "broken pipe") [] (by decide) (fun _ => by simp [brokenPipeEnv])
    (by
      intro k op hop
      cases op with
      | WriteMessage c t p =>
        have hc : c ≠ 1 := fun h => hop t p (by rw [h])
        simp [brokenPipeEnv, hc]
      | SetWriteDeadline c t => rfl
      | Close c => rfl)
    (by decide)).1

/-- C4, counterexample: the community "c" has the members S, R and T, visited in
this order; S sends a message and the write to R fails.  The only operation that
follows is the closing of the connection of S: S is removed from the community,
R stays in it with its connection open, and T is not written the message. -/
theorem forward_failure_counterexample :
    serveInput (brokenPipeEnv 1) 10
        [("c", { password := "pw", conns := [("S", 0), ("R", 1), ("T", 2)] })]
        ⟨"c", "pw", "pw", "S", 0⟩ ⟨1, [104, 105]⟩ [("S", 0), ("R", 1), ("T", 2)] [] =
      ([("c", { password := "pw", conns := [("R", 1), ("T", 2)] })], [.Close 0], false) ∧
    writtenTo 2 [.Close 0] = [] := by
  decide

/-- C9: the members S, R and T are visited in this order and nothing fails.  The
forwarding loop writes the message to each recipient first and sets the write
deadline on that recipient afterwards, whereas the ping branch sets the deadline
before it writes. -/
theorem forward_sets_deadline_after_write :
    forward quietEnv 10 "S" ⟨1, [104, 105]⟩ [("S", 0), ("R", 1), ("T", 2)] [] =
      ([.WriteMessage 1 1 [104, 105], .SetWriteDeadline 1 11,
        .WriteMessage 2 1 [104, 105], .SetWriteDeadline 2 13], none) ∧
    ping quietEnv 10 0 [] = ([.SetWriteDeadline 0 10, .WriteMessage 0 PingMessage []], none) := by
  decide

/-! ## Theorems: the client commands -/

/-- C8, as amended: for every parsed remote address `u` and non-blank community
`c`, password `p` and key, the URL that the commands hand to the adapter keeps the
scheme, host and path of `u` and carries `c` as the value of the query parameter
`community` and `p` as the value of the query parameter `password`; the signaling
server reads the password `p` from it and, as community ID, what it reads from
the path of `u` itself. -/
theorem signalingURL_query (u : URL) (c p key : String) (hc : TrimSpace c ≠ "")
    (hp : TrimSpace p ≠ "") (hkey : TrimSpace key ≠ "") :
    adapterURL (.ok u) c p key = .ok (signalingURL u c p) ∧
    (signalingURL u c p).Scheme = u.Scheme ∧
    (signalingURL u c p).Host = u.Host ∧
    (signalingURL u c p).Path = u.Path ∧
    (signalingURL u c p).Query.Get "community" = c ∧
    (signalingURL u c p).Query.Get "password" = p ∧
    passwordOf (signalingURL u c p) = .ok p ∧
    communityIDOf (signalingURL u c p).Path = communityIDOf u.Path := by
  have hpw : (signalingURL u c p).Query.Get "password" = p := by
    simp [signalingURL, URL.Query, Values.Get, Values.Set, Values.Encode, mapGet_mapSet_self]
  have hcm : (signalingURL u c p).Query.Get "community" = c := by
    have hne : ("community" : String) ≠ "password" := by decide
    simp [signalingURL, URL.Query, Values.Get, Values.Set, Values.Encode,
      mapGet_mapSet_ne _ _ _ _ hne, mapGet_mapSet_self]
  refine ⟨by simp [adapterURL, hc, hp, hkey], rfl, rfl, rfl, hcm, hpw, ?_, rfl⟩
  simp only [passwordOf, hpw, hp, if_false]

/-- C8, witness: the default remote address, community "c", password "pw". -/
theorem signalingURL_query_witness :
    adapterURL (.ok defaultRaddr) "c" "pw" "key" = .ok (signalingURL defaultRaddr "c" "pw") ∧
    (signalingURL defaultRaddr "c" "pw").Query.Get "community" = "c" ∧
    passwordOf (signalingURL defaultRaddr "c" "pw") = .ok "pw" :=
  ⟨(signalingURL_query defaultRaddr "c" "pw" "key" (by decide) (by decide) (by decide)).1,
    (signalingURL_query defaultRaddr "c" "pw" "key" (by decide) (by decide)
      (by decide)).2.2.2.2.1,
    (signalingURL_query defaultRaddr "c" "pw" "key" (by decide) (by decide)
      (by decide)).2.2.2.2.2.2.1⟩

/-- C8, counterexample: with the default remote address, community "c" and
password "pw", the URL handed to the adapter has the path "/" and the query
community=c, password=pw; the final path segment is empty, not "c", and the
signaling server rejects the URL with the missing-community-ID error. -/
theorem signalingURL_community_not_in_path :
    adapterURL (.ok defaultRaddr) "c" "pw" "key" =
      .ok { Scheme := "wss", Host := "webrtcfd.herokuapp.com", Path := "/",
            RawQuery := [("community", ["c"]), ("password", ["pw"])] } ∧
    communityIDOf (signalingURL defaultRaddr "c" "pw").Path =
      .error .errMissingCommunityID := by
  decide

/-! ## Theorems: the throughput batches -/

theorem wrapInt_of_range (v : Int) (h0 : -9223372036854775808 ≤ v)
    (h1 : v < 9223372036854775808) : wrapInt v = v := by
  unfold wrapInt
  omega

theorem goSum_exact (len : Nat) (counts : List Int) (acc : Int)
    (hc : ∀ n ∈ counts, 0 ≤ n ∧ n ≤ (len : Int)) (hacc : 0 ≤ acc)
    (hfit : acc + (counts.length : Int) * len < 9223372036854775808) :
    goSum acc counts = acc + counts.sum := by
  induction counts generalizing acc with
  | nil => simp [goSum]
  | cons n counts ih =>
    have hn := hc n (List.mem_cons_self _ _)
    have hmul : (((n :: counts).length : Nat) : Int) * len = (counts.length : Int) * len + len := by
      simp only [List.length_cons]
      push_cast
      ring
    rw [hmul] at hfit
    have hpos : (0 : Int) ≤ (counts.length : Int) * len :=
      Int.mul_nonneg (Int.ofNat_nonneg _) (Int.ofNat_nonneg _)
    have hw : wrapInt (acc + n) = acc + n := wrapInt_of_range _ (by omega) (by omega)
    have := ih (acc + n) (fun k hk => hc k (List.mem_cons_of_mem _ hk)) (by omega) (by omega)
    simp only [goSum, List.foldl_cons, List.sum_cons] at this ⊢
    rw [hw, this]
    ring

theorem writeCounts_length (o : Oracle) (len : Nat) (count start : Nat) :
    (writeCounts o len start count).length = count := by
  induction count generalizing start with
  | zero => rfl
  | succ count ih => simp [writeCounts, ih]

theorem readCounts_length (o : Oracle) (len : Nat) (count start : Nat) :
    (readCounts o len start count).length = count := by
  induction count generalizing start with
  | zero => rfl
  | succ count ih => simp [readCounts, ih]

theorem writeCounts_bounds (o : Oracle) (len : Nat) (count start : Nat)
    (h : ∀ k c, 0 ≤ (o.call k c).1 ∧ (o.call k c).1 ≤ (c.len : Int)) :
    ∀ n ∈ writeCounts o len start count, 0 ≤ n ∧ n ≤ (len : Int) := by
  induction count generalizing start with
  | zero => simp [writeCounts]
  | succ count ih =>
    intro n hn
    simp only [writeCounts, List.mem_cons] at hn
    rcases hn with rfl | hn
    · exact h _ (.Write len)
    · exact ih _ n hn

theorem readCounts_bounds (o : Oracle) (len : Nat) (count start : Nat)
    (h : ∀ k c, 0 ≤ (o.call k c).1 ∧ (o.call k c).1 ≤ (c.len : Int)) :
    ∀ n ∈ readCounts o len start count, 0 ≤ n ∧ n ≤ (len : Int) := by
  induction count generalizing start with
  | zero => simp [readCounts]
  | succ count ih =>
    intro n hn
    simp only [readCounts, List.mem_cons] at hn
    rcases hn with rfl | hn
    · exact h _ (.Read len)
    · exact ih _ n hn

theorem senderPackets_ok (o : Oracle) (len : Nat) (hok : ∀ k c, (o.call k c).2 = none)
    (count : Nat) (written : Int) (tr : List Call) :
    senderPackets o len count written tr =
      (tr ++ (List.replicate count [Call.randRead len, Call.Write len]).flatten,
        .ok (goSum written (writeCounts o len tr.length count))) := by
  induction count generalizing written tr with
  | zero => simp [senderPackets, writeCounts, goSum]
  | succ count ih =>
    have hneg : ¬ ((len : Int) < 0) := Int.not_lt.mpr (Int.ofNat_nonneg len)
    rcases hcall : o.call (tr ++ [Call.randRead len]).length (.Write len) with ⟨n, e⟩
    have he : e = none := by
      have := hok (tr ++ [Call.randRead len]).length (.Write len)
      rw [hcall] at this
      exact this
    subst he
    simp only [senderPackets, hneg, if_false, Int.toNat_ofNat, hok, hcall]
    rw [ih]
    have hlen : (tr ++ [Call.randRead len]).length = tr.length + 1 := by simp
    have hlen2 : (tr ++ [Call.randRead len] ++ [Call.Write len]).length = tr.length + 2 := by
      simp
    rw [hlen] at hcall
    have hlen3 : (tr ++ [Call.randRead len, Call.Write len]).length = tr.length + 2 := by
      simp
    simp only [hlen2, hlen3, writeCounts, goSum, List.foldl_cons, hcall, List.replicate_succ,
      List.flatten_cons, List.append_assoc, List.cons_append, List.nil_append]

theorem receiverPackets_ok (o : Oracle) (len : Nat) (hok : ∀ k c, (o.call k c).2 = none)
    (count : Nat) (read : Int) (tr : List Call) :
    receiverPackets o len count read tr =
      (tr ++ List.replicate count (Call.Read len),
        .ok (goSum read (readCounts o len tr.length count))) := by
  induction count generalizing read tr with
  | zero => simp [receiverPackets, readCounts, goSum]
  | succ count ih =>
    have hneg : ¬ ((len : Int) < 0) := Int.not_lt.mpr (Int.ofNat_nonneg len)
    rcases hcall : o.call tr.length (.Read len) with ⟨n, e⟩
    have he : e = none := by
      have := hok tr.length (.Read len)
      rw [hcall] at this
      exact this
    subst he
    simp only [receiverPackets, hneg, if_false, Int.toNat_ofNat, hcall]
    rw [ih]
    have hlen : (tr ++ [Call.Read len]).length = tr.length + 1 := by simp
    simp only [hlen, readCounts, goSum, List.foldl_cons, hcall, List.replicate_succ,
      List.append_assoc, List.cons_append, List.nil_append]

theorem filter_onConn_sender (len : Nat) (count : Nat) :
    ((List.replicate count [Call.randRead len, Call.Write len]).flatten ++
      [Call.Read acklen]).filter Call.onConn =
      List.replicate count (Call.Write len) ++ [Call.Read 100] := by
  induction count with
  | zero => rfl
  | succ count ih =>
    simp only [List.replicate_succ, List.flatten_cons, List.cons_append, List.nil_append,
      List.filter_cons, Call.onConn]
    simpa using ih

theorem filter_onConn_receiver (len : Nat) (count : Nat) :
    (List.replicate count (Call.Read len) ++ [Call.Write acklen]).filter Call.onConn =
      List.replicate count (Call.Read len) ++ [Call.Write 100] := by
  induction count with
  | zero => rfl
  | succ count ih =>
    simp only [List.replicate_succ, List.cons_append, List.filter_cons, Call.onConn]
    simpa using ih

/-- C10: for every packet count `n` and packet length `len`, when no call fails,
a sender batch consists of `n` times a `rand.Read` and a write of a buffer of
`len` bytes, followed by one read into a buffer of `acklen` bytes, so that its
calls on the connection are `n` writes of `len` bytes and then one read into 100
bytes; a receiver batch consists of `n` reads into buffers of `len` bytes followed
by one write of 100 bytes.  The amount added to `totalTransferred` is the sum,
computed in `int`, of the `n` byte counts returned by the writes (sender) or by
the reads (receiver); it is their exact sum when every count lies between 0 and
the buffer length and `n * len` fits into an `int`. -/
theorem throughput_batch (o : Oracle) (n len : Nat) (totalTransferred : Int)
    (tr : List Call) (hok : ∀ k c, (o.call k c).2 = none) :
    senderBatch o n len totalTransferred tr =
      (tr ++ ((List.replicate n [Call.randRead len, Call.Write len]).flatten ++
          [Call.Read acklen]),
        .ok (wrapInt (totalTransferred + goSum 0 (writeCounts o len tr.length n)))) ∧
    ((List.replicate n [Call.randRead len, Call.Write len]).flatten ++
        [Call.Read acklen]).filter Call.onConn =
      List.replicate n (Call.Write len) ++ [Call.Read 100] ∧
    (writeCounts o len tr.length n).length = n ∧
    receiverBatch o n len totalTransferred tr =
      (tr ++ (List.replicate n (Call.Read len) ++ [Call.Write acklen]),
        .ok (wrapInt (totalTransferred + goSum 0 (readCounts o len tr.length n)))) ∧
    (List.replicate n (Call.Read len) ++ [Call.Write acklen]).filter Call.onConn =
      List.replicate n (Call.Read len) ++ [Call.Write 100] ∧
    (readCounts o len tr.length n).length = n ∧
    ((∀ k c, 0 ≤ (o.call k c).1 ∧ (o.call k c).1 ≤ (c.len : Int)) →
      (n : Int) * len < 9223372036854775808 →
      goSum 0 (writeCounts o len tr.length n) = (writeCounts o len tr.length n).sum ∧
      goSum 0 (readCounts o len tr.length n) = (readCounts o len tr.length n).sum) := by
  refine ⟨?_, filter_onConn_sender len n, writeCounts_length o len n _, ?_,
    filter_onConn_receiver len n, readCounts_length o len n _, fun hb hfit => ⟨?_, ?_⟩⟩
  · simp only [senderBatch, Int.toNat_ofNat, senderPackets_ok o len hok, hok,
      List.append_assoc]
  · simp only [receiverBatch, Int.toNat_ofNat, receiverPackets_ok o len hok, hok,
      List.append_assoc]
  · have := goSum_exact len (writeCounts o len tr.length n) 0
      (writeCounts_bounds o len n _ hb) (le_refl _)
      (by rw [writeCounts_length]; simpa using hfit)
    simpa using this
  · have := goSum_exact len (readCounts o len tr.length n) 0
      (readCounts_bounds o len n _ hb) (le_refl _)
      (by rw [readCounts_length]; simpa using hfit)
    simpa using this

/-- C10, witness: batches of three packets of five bytes, every call transferring
its whole buffer, with 1000 bytes transferred before the batch. -/
theorem throughput_batch_witness :
    senderBatch fullOracle 3 5 1000 [] =
      ([.randRead 5, .Write 5, .randRead 5, .Write 5, .randRead 5, .Write 5, .Read 100],
        .ok 1015) ∧
    receiverBatch fullOracle 3 5 1000 [] =
      ([.Read 5, .Read 5, .Read 5, .Write 100], .ok 1015) ∧
    goSum 0 (writeCounts fullOracle 5 0 3) = (writeCounts fullOracle 5 0 3).sum :=
  ⟨(throughput_batch fullOracle 3 5 1000 [] (fun _ _ => rfl)).1,
    (throughput_batch fullOracle 3 5 1000 [] (fun _ _ => rfl)).2.2.2.1,
    ((throughput_batch fullOracle 3 5 1000 [] (fun _ _ => rfl)).2.2.2.2.2.2
      (fun _ c => ⟨Int.ofNat_nonneg _, le_refl _⟩) (by decide)).1⟩

end Weron
